import Mathlib

/-!
Verification development for the timeline extraction and reconciliation
program (`extract_timelines.py`).  The Python source is shallowly embedded:
pure functions become Lean functions over `String` / `List Char`, the
reconciliation driver's mutable state becomes explicit state passing over an
association list (mirroring Python `dict` semantics: first binding wins on
lookup, update-in-place preserves position, fresh keys append), and the
OpenAI gateway together with the SHA-256 content fingerprint are abstracted
as function parameters (`g : String → GOut`, `hash : String → String`),
since their outputs are opaque to the driver logic under verification.
-/

/-! ### Generic string helpers (Python string primitives) -/

/-- `matchesAt needle l` : does `l` start with `needle`?  (Python slice compare.) -/
def matchesAt : List Char → List Char → Bool
  | [], _ => true
  | _ :: _, [] => false
  | a :: as, b :: bs => a == b && matchesAt as bs

/-- `hasSub needle l` : Python's substring test `needle in l`. -/
def hasSub (needle : List Char) : List Char → Bool
  | [] => matchesAt needle []
  | c :: rest => matchesAt needle (c :: rest) || hasSub needle rest

/-- Python `str.upper()` (ASCII, which is all the keyword tables use). -/
def upperStr (s : String) : String := String.mk (s.data.map Char.toUpper)

/-- Python `str.strip()` on a character list (ASCII whitespace). -/
def stripWS (l : List Char) : List Char :=
  ((l.dropWhile Char.isWhitespace).reverse.dropWhile Char.isWhitespace).reverse

/-- Python `line.rstrip(chr(10))`: drop trailing newline characters. -/
def rstripNL (l : List Char) : List Char :=
  (l.reverse.dropWhile (fun c => c == '\n')).reverse

/-- Python `s.split(sep)` for a one-character separator, keeping empty
pieces. -/
def splitOnCh (ch : Char) : List Char → List (List Char)
  | [] => [[]]
  | c :: cs =>
    match splitOnCh ch cs with
    | [] => [[]]
    | p :: ps => if c == ch then [] :: p :: ps else (c :: p) :: ps

/-- Python `s.split(chr(9))`: split on tabs, keeping empty pieces. -/
def splitOnTab : List Char → List (List Char) := splitOnCh '\t'

/-- Split on newline characters, keeping empty pieces (file line iteration). -/
def splitOnNL : List Char → List (List Char) := splitOnCh '\n'

/-- Python `sep.join` specialised to a tab separator, on character lists. -/
def tabJoin : List (List Char) → List Char
  | [] => []
  | [x] => x
  | x :: y :: rest => x ++ '\t' :: tabJoin (y :: rest)

/-- A string free of tab and newline characters: the precondition for a field
to survive the TSV round trip. -/
def noTabNL (s : String) : Prop := ('\t' ∉ s.data) ∧ ('\n' ∉ s.data)

instance (s : String) : Decidable (noTabNL s) := by
  unfold noTabNL; infer_instance

/-! ### Record model: `TimelineRow` -/

/-- The TSV header line of the snapshot (source constant `TSV_HEADER`). -/
def TSV_HEADER : String :=
  String.mk (tabJoin [
    ("Comment ID" : String).data,
    ("Eligibility" : String).data,
    ("Application Method" : String).data,
    ("Application Date" : String).data,
    ("Biometric Date" : String).data,
    ("Approval Date" : String).data,
    ("Ceremony Date" : String).data,
    ("Body Hash" : String).data])

/-- A single timeline row with all eight fields (class `TimelineRow`). -/
structure TimelineRow where
  comment_id : String
  eligibility : String
  application_method : String
  application_date : String
  biometric_date : String
  approval_date : String
  ceremony_date : String
  body_hash : String
deriving DecidableEq, Repr

namespace TimelineRow

/-- `TimelineRow.to_tsv_row`: join the eight fields with tabs. -/
def to_tsv_row (r : TimelineRow) : String :=
  String.mk (tabJoin [
    r.comment_id.data,
    r.eligibility.data,
    r.application_method.data,
    r.application_date.data,
    r.biometric_date.data,
    r.approval_date.data,
    r.ceremony_date.data,
    r.body_hash.data])

/-- The local `parts = line.rstrip(newline).split(tab)` of `from_tsv_row`. -/
def tsvParts (line : String) : List String :=
  (splitOnTab (rstripNL line.data)).map (fun l => String.mk l)

/-- `TimelineRow.from_tsv_row`: strip trailing newlines, split on tabs,
require at least seven columns, read the optional eighth column. -/
def from_tsv_row (line : String) : Option TimelineRow :=
  if (tsvParts line).length < 7 then none
  else some {
    comment_id := (tsvParts line).getD 0 "",
    eligibility := (tsvParts line).getD 1 "",
    application_method := (tsvParts line).getD 2 "",
    application_date := (tsvParts line).getD 3 "",
    biometric_date := (tsvParts line).getD 4 "",
    approval_date := (tsvParts line).getD 5 "",
    ceremony_date := (tsvParts line).getD 6 "",
    body_hash := if 7 < (tsvParts line).length then (tsvParts line).getD 7 "" else "" }

/-- `TimelineRow._merge_date`: keep a non-`N/A`, non-blank old date; else take
a non-`N/A`, non-blank new date; else the unknown sentinel.  The three
conjuncts mirror Python's `old_date and old_date != "N/A" and old_date.strip()`. -/
def _merge_date (old_date new_date : String) : String :=
  if old_date ≠ "" ∧ old_date ≠ "N/A" ∧ stripWS old_date.data ≠ [] then old_date
  else if new_date ≠ "" ∧ new_date ≠ "N/A" ∧ stripWS new_date.data ≠ [] then new_date
  else "N/A"

/-- `TimelineRow.merge_with`: newer categorical fields win, dates merge
stickily, and the body hash updates to the new one. -/
def merge_with (self other : TimelineRow) : TimelineRow :=
  { comment_id := self.comment_id,
    eligibility := other.eligibility,
    application_method := other.application_method,
    application_date := _merge_date self.application_date other.application_date,
    biometric_date := _merge_date self.biometric_date other.biometric_date,
    approval_date := _merge_date self.approval_date other.approval_date,
    ceremony_date := _merge_date self.ceremony_date other.ceremony_date,
    body_hash := other.body_hash }

end TimelineRow

/-! ### Normalizers -/

def kwEUSS : List Char := ("EUSS" : String).data
def kwSETTLED : List Char := ("SETTLED STATUS" : String).data
def kwEUSETTLED : List Char := ("EU SETTLED" : String).data
def kwMN1 : List Char := ("MN1" : String).data
def kwFORMT : List Char := ("FORM T" : String).data
def kwARMED : List Char := ("ARMED" : String).data
def kwBNO : List Char := ("BNO" : String).data
def kwMARRIAGE : List Char := ("MARRIAGE" : String).data
def kwMARRIEDTB : List Char := ("MARRIED TO BRITISH" : String).data
def kwBRITSPOUSE : List Char := ("BRITISH SPOUSE" : String).data
def kwSPOUSEOFB : List Char := ("SPOUSE OF A BRITISH" : String).data
def kwPLUSMARRIAGE : List Char := ("(+ MARRIAGE)" : String).data

/-- Base-label selection of `sanity_normalise_eligibility` (the if/elif chain
over the uppercased input). -/
def elig_base (u : List Char) : String :=
  if hasSub kwEUSS u || hasSub kwSETTLED u || hasSub kwEUSETTLED u then "EUSS"
  else if hasSub kwMN1 u then "MN1"
  else if hasSub kwFORMT u then "Form T"
  else if hasSub kwARMED u then "Armed Forces"
  else if hasSub kwBNO u then "BNO"
  else "ILR"

/-- Marriage-suffix selection of `sanity_normalise_eligibility`. -/
def elig_suffix (u : List Char) : String :=
  if hasSub kwMARRIAGE u || hasSub kwMARRIEDTB u || hasSub kwBRITSPOUSE u
      || hasSub kwSPOUSEOFB u || hasSub kwPLUSMARRIAGE u then " (+ Marriage)"
  else ""

/-- `sanity_normalise_eligibility`: strip, uppercase, pick a base label by
keyword priority, append the marriage suffix when detected. -/
def sanity_normalise_eligibility (value : String) : String :=
  elig_base (upperStr (String.mk (stripWS value.data))).data
    ++ elig_suffix (upperStr (String.mk (stripWS value.data))).data

/-- The local `val = str(x or "").strip()` of `sanity_norm_date`. -/
def normDateVal (x : String) : String := String.mk (stripWS x.data)

/-- `sanity_norm_date`: pass `N/A` through; otherwise accept exactly the
length-10 shape with dashes at positions 4 and 7, else fall back to `N/A`. -/
def sanity_norm_date (x : String) : String :=
  if normDateVal x = "N/A" then normDateVal x
  else if (normDateVal x).length = 10 ∧ (normDateVal x).data.get? 4 = some '-'
      ∧ (normDateVal x).data.get? 7 = some '-' then normDateVal x
  else "N/A"

/-- Python `str.title()` (ASCII): an alphabetic character is uppercased when
it follows a non-alphabetic character and lowercased otherwise. -/
def pyTitleGo : Bool → List Char → List Char
  | _, [] => []
  | prev, c :: cs =>
    (if c.isAlpha then (if prev then c.toLower else c.toUpper) else c)
      :: pyTitleGo c.isAlpha cs

/-- The local `str(...).strip().title()` of the method normalisation. -/
def pyTitleStrip (m : String) : String := String.mk (pyTitleGo false (stripWS m.data))

/-- Normalisation of `application_method` in `process_comment`:
`.strip().title()` then a membership check with default `Online`. -/
def normMethod (m : String) : String :=
  if pyTitleStrip m = "Online" ∨ pyTitleStrip m = "Paper" ∨ pyTitleStrip m = "Other"
    then pyTitleStrip m
  else "Online"

/-! ### Spec-side definitions (stated from the specification's words, to be
compared with the source embedding) -/

/-- Modelled from the spec: "known date" as claim C2 words it — non-empty and
not the unknown sentinel. -/
def knownDateClaimed (s : String) : Prop := s ≠ "" ∧ s ≠ "N/A"

instance (s : String) : Decidable (knownDateClaimed s) := by
  unfold knownDateClaimed; infer_instance

/-- The date-merge law exactly as claim C2 states it, with "known" read as
"non-empty and not the sentinel". -/
def mergeDateClaimed (o n : String) : String :=
  if knownDateClaimed o then o
  else if knownDateClaimed n then n
  else "N/A"

/-- Amended notion of a known date: not the sentinel and not blank (empty or
whitespace-only strings are unknown). -/
def knownDateB (s : String) : Bool := !(s == "N/A") && !(stripWS s.data == [])

/-- The amended date-merge law of claim C2. -/
def mergeDateAmended (o n : String) : String :=
  if knownDateB o then o
  else if knownDateB n then n
  else "N/A"

/-! ### Association lists with Python `dict` semantics

Lookup returns the first binding; update replaces in place (keeping the
original position, as CPython dicts do); fresh keys append; delete removes
the binding. -/

def alookup {α : Type} : List (String × α) → String → Option α
  | [], _ => none
  | (a, b) :: t, k => if a = k then some b else alookup t k

def ainsert {α : Type} : List (String × α) → String → α → List (String × α)
  | [], k, v => [(k, v)]
  | (a, b) :: t, k, v => if a = k then (k, v) :: t else (a, b) :: ainsert t k v

def aerase {α : Type} : List (String × α) → String → List (String × α)
  | [], _ => []
  | (a, b) :: t, k => if a = k then aerase t k else (a, b) :: aerase t k

/-- The distinct keys of an association list. -/
def keysOf {α : Type} (m : List (String × α)) : List String := (m.map Prod.fst).dedup

/-- Python `sorted(d.keys())`. -/
def sortedKeys {α : Type} (m : List (String × α)) : List String :=
  List.insertionSort (fun a b : String => a ≤ b) (keysOf m)

/-! ### Extraction gateway and `process_comment`

The OpenAI call is opaque to the driver; it is embedded as a function
`g : String → GOut` from the comment body.  `gerr` is a transient failure
(network error or model output that fails to parse as JSON), `gskip` is the
explicit `skip=true` signal, `gok` carries the six extracted fields.
Likewise `compute_body_hash` (a truncated SHA-256) is abstracted as a
function parameter `hash : String → String`. -/

inductive GOut where
  | gerr : GOut
  | gskip : GOut
  | gok (eligibility application_method application_date biometric_date
        approval_date ceremony_date : String) : GOut
deriving DecidableEq, Repr

/-- `process_comment`: `None` on gateway failure and on `skip=true`; otherwise
normalise every field and stamp the body hash.  The source cannot tell the
failure `None` from the skip `None` — both map to `none` here exactly as both
map to `None` there. -/
def process_comment (g : String → GOut) (hash : String → String)
    (comment_id body : String) : Option TimelineRow :=
  match g body with
  | .gerr => none
  | .gskip => none
  | .gok e m a b ap c =>
    some {
      comment_id := comment_id,
      eligibility := sanity_normalise_eligibility e,
      application_method := normMethod m,
      application_date := sanity_norm_date a,
      biometric_date := sanity_norm_date b,
      approval_date := sanity_norm_date ap,
      ceremony_date := sanity_norm_date c,
      body_hash := hash body }

/-! ### Reconciliation driver (`main`'s per-comment loop) -/

/-- One source item: the externally assigned comment id and the body text.
(`main` derives the id from `comment_id`/`name`/`id` or a synthetic
positional id, so it is never empty; here items arrive with the id already
derived.) -/
structure SourceItem where
  comment_id : String
  body : String
deriving DecidableEq, Repr

/-- The driver's mutable state: `existing_data`, `skipped_cache`, the rows
written to the in-progress file so far (paired with the id recorded in
`written_to_inprogress`), and the log of gateway invocations. -/
structure RunState where
  data : List (String × TimelineRow)
  skipped : List (String × String)
  written : List (String × TimelineRow)
  calls : List (String × String)
deriving Repr

def writtenKeys (st : RunState) : List String := st.written.map Prod.fst

/-- Write a row to the in-progress file unless its id was already written
(the `comment_id not in written_to_inprogress` guard). -/
def writeRow (st : RunState) (cid : String) (r : TimelineRow) : RunState :=
  if cid ∈ writtenKeys st then st
  else { st with written := st.written ++ [(cid, r)] }

/-- One iteration of `main`'s comment loop (source lines 420–501): skip blank
bodies; carry the prior record for deleted/removed bodies; short-circuit on a
matching negative-cache fingerprint; carry unchanged records; otherwise call
the gateway, and either record a negative (dropping any prior record) or
insert/merge the fresh row, writing it to the in-progress file. -/
def step (hash : String → String) (g : String → GOut)
    (st : RunState) (c : SourceItem) : RunState :=
  if stripWS c.body.data = [] then st
  else if c.body = "[deleted]" ∨ c.body = "[removed]" then
    match alookup st.data c.comment_id with
    | some row => writeRow st c.comment_id row
    | none => st
  else if alookup st.skipped c.comment_id = some (hash c.body) then st
  else
    match alookup st.data c.comment_id with
    | some row =>
      if row.body_hash = hash c.body then writeRow st c.comment_id row
      else
        match process_comment g hash c.comment_id c.body with
        | none =>
          { st with calls := st.calls ++ [(c.comment_id, c.body)],
                    data := aerase st.data c.comment_id,
                    skipped := ainsert st.skipped c.comment_id (hash c.body) }
        | some nr =>
          writeRow { st with calls := st.calls ++ [(c.comment_id, c.body)],
                             data := ainsert st.data c.comment_id (row.merge_with nr) }
            c.comment_id (row.merge_with nr)
    | none =>
      match process_comment g hash c.comment_id c.body with
      | none =>
        { st with calls := st.calls ++ [(c.comment_id, c.body)],
                  data := aerase st.data c.comment_id,
                  skipped := ainsert st.skipped c.comment_id (hash c.body) }
      | some nr =>
        writeRow { st with calls := st.calls ++ [(c.comment_id, c.body)],
                           data := ainsert st.data c.comment_id nr }
          c.comment_id nr

def runLoop (hash : String → String) (g : String → GOut)
    (st : RunState) (feed : List SourceItem) : RunState :=
  feed.foldl (step hash g) st

/-- Source lines 503–507: carry every id still in `existing_data` that was
not revisited into the in-progress file. -/
def finish (st : RunState) : RunState :=
  st.data.foldl
    (fun s kv =>
      if kv.1 ∈ writtenKeys s then s
      else { s with written := s.written ++ [kv] })
    st

@[reducible] def initState (D : List (String × TimelineRow))
    (K : List (String × String)) : RunState :=
  { data := D, skipped := K, written := [], calls := [] }

/-- A full pass of the driver over the feed, from a prior store `D` and a
prior negative cache `K`. -/
def run (hash : String → String) (g : String → GOut)
    (feed : List SourceItem) (D : List (String × TimelineRow))
    (K : List (String × String)) : RunState :=
  finish (runLoop hash g (initState D K) feed)

/-! ### Serialisation of store, in-progress file and negative cache -/

def concatStrings : List String → String
  | [] => ""
  | s :: rest => s ++ concatStrings rest

/-- File line iteration (splitting the content on newlines). -/
def linesOf (content : String) : List String :=
  (splitOnNL content.data).map (fun l => String.mk l)

/-- `read_existing_data` (and the identical re-read of the in-progress file
in `main`, lines 527–536): skip the header line, parse each line, keep rows
with a non-empty id, later lines overwriting earlier ones. -/
def read_existing_data (content : String) : List (String × TimelineRow) :=
  ((linesOf content).drop 1).foldl
    (fun m line =>
      match TimelineRow.from_tsv_row line with
      | some row => if row.comment_id ≠ "" then ainsert m row.comment_id row else m
      | none => m)
    []

/-- Header plus one TSV line per written row, in write order. -/
def renderPairs (ws : List (String × TimelineRow)) : String :=
  TSV_HEADER ++ "\n" ++ concatStrings (ws.map (fun p => p.2.to_tsv_row ++ "\n"))

/-- A map paired up in sorted-key order (`sorted(d.keys())` with values). -/
def sortedPairs {α : Type} (m : List (String × α)) : List (String × α) :=
  (sortedKeys m).filterMap (fun k => (alookup m k).map (fun v => (k, v)))

/-- The store paired up in sorted-key order (`sorted(final_data.keys())`). -/
def snapPairs (m : List (String × TimelineRow)) : List (String × TimelineRow) :=
  sortedPairs m

/-- The snapshot file content for a store: header then the id-sorted rows. -/
def snapshotString (m : List (String × TimelineRow)) : String :=
  renderPairs (snapPairs m)

/-- The in-progress file content after a run. -/
def inprogressContent (st : RunState) : String := renderPairs st.written

/-- `final_data` of `main`'s finalisation: the in-progress file re-read. -/
def finalData (st : RunState) : List (String × TimelineRow) :=
  read_existing_data (inprogressContent st)

/-- The bytes of the snapshot the run finally writes. -/
def finalSnapshot (st : RunState) : String := snapshotString (finalData st)

/-- The skipped-cache file content (source lines 518–521): one
`id TAB fingerprint` line per id, sorted. -/
def skippedString (m : List (String × String)) : String :=
  concatStrings ((sortedPairs m).map (fun p => (p.1 ++ "\t" ++ p.2) ++ "\n"))

/-- Reading the skipped cache back (source lines 366–376): strip each line,
split on tabs, keep exactly-two-part lines. -/
def parseSkipped (content : String) : List (String × String) :=
  (linesOf content).foldl
    (fun m line =>
      match splitOnTab (stripWS line.data) with
      | [a, b] => ainsert m (String.mk a) (String.mk b)
      | _ => m)
    []

/-! ### Finalisation as file-system operations (for the atomicity claim)

`main` lines 525–551: the output path is opened with mode `w` (truncating
it), the header and the sorted rows are written to it sequentially, and the
in-progress file is removed afterwards.  There is no rename of a temporary
file over the output path. -/

inductive FinOp where
  | truncOut : FinOp
  | writeOut (s : String) : FinOp
  | removeInprog : FinOp
deriving DecidableEq, Repr

/-- The two files finalisation touches: the durable snapshot path and the
in-progress path (`none` = the file does not exist). -/
structure FileSys where
  out : Option String
  inprog : Option String
deriving DecidableEq, Repr

def applyOp (fs : FileSys) : FinOp → FileSys
  | .truncOut => { fs with out := some "" }
  | .writeOut s => { fs with out := some ((fs.out.getD "") ++ s) }
  | .removeInprog => { fs with inprog := none }

def applyOps (fs : FileSys) (ops : List FinOp) : FileSys := ops.foldl applyOp fs

/-- The exact operation sequence of `main`'s finalisation for a final store
`m`: truncate the output, write the header, write each id-sorted row, then
remove the in-progress file. -/
def finalizeOps (m : List (String × TimelineRow)) : List FinOp :=
  (FinOp.truncOut
      :: FinOp.writeOut (TSV_HEADER ++ "\n")
      :: (snapPairs m).map (fun p => FinOp.writeOut (p.2.to_tsv_row ++ "\n")))
    ++ [FinOp.removeInprog]

/-! ### Well-formedness predicates used as hypotheses -/

/-- Every field of the row is free of tabs and newlines, so the row survives
the TSV round trip. -/
def cleanRow (r : TimelineRow) : Prop :=
  noTabNL r.comment_id ∧ noTabNL r.eligibility ∧ noTabNL r.application_method
    ∧ noTabNL r.application_date ∧ noTabNL r.biometric_date
    ∧ noTabNL r.approval_date ∧ noTabNL r.ceremony_date ∧ noTabNL r.body_hash

instance (r : TimelineRow) : Decidable (cleanRow r) := by
  unfold cleanRow; infer_instance

/-- Each stored row is keyed by its own `comment_id`. -/
def wellKeyed (m : List (String × TimelineRow)) : Prop :=
  ∀ p ∈ m, p.2.comment_id = p.1

instance (m : List (String × TimelineRow)) : Decidable (wellKeyed m) := by
  unfold wellKeyed; infer_instance

/-- A single well-formed store/in-progress binding: clean row, keyed by its
own non-empty id. -/
def pairOK (p : String × TimelineRow) : Prop :=
  cleanRow p.2 ∧ p.2.comment_id = p.1 ∧ p.1 ≠ ""

instance (p : String × TimelineRow) : Decidable (pairOK p) := by
  unfold pairOK; infer_instance

/-- A store as `read_existing_data` produces it: distinct, non-empty keys,
each row keyed by its own id, all fields tab/newline-free. -/
def StoreOK (m : List (String × TimelineRow)) : Prop :=
  (m.map Prod.fst).Nodup ∧ wellKeyed m ∧ ∀ p ∈ m, cleanRow p.2 ∧ p.1 ≠ ""

instance (m : List (String × TimelineRow)) : Decidable (StoreOK m) := by
  unfold StoreOK; infer_instance

/-- An id as the driver derives it: non-empty, no tabs or newlines, no
leading whitespace (so the skipped-cache line round-trips). -/
def idOK (s : String) : Prop :=
  s ≠ "" ∧ noTabNL s ∧ s.data.dropWhile Char.isWhitespace = s.data

instance (s : String) : Decidable (idOK s) := by
  unfold idOK; infer_instance

/-- A fingerprint value: non-empty, no tabs or newlines, no trailing
whitespace (the truncated SHA-256 hex digest satisfies all of these). -/
def fpOK (s : String) : Prop :=
  s ≠ "" ∧ noTabNL s ∧ s.data.reverse.dropWhile Char.isWhitespace = s.data.reverse

instance (s : String) : Decidable (fpOK s) := by
  unfold fpOK; infer_instance

/-- A skipped-cache entry whose `id TAB fingerprint` line round-trips. -/
def cacheEntryOK (k v : String) : Prop := idOK k ∧ fpOK v

instance (k v : String) : Decidable (cacheEntryOK k v) := by
  unfold cacheEntryOK; infer_instance

def CacheOK (K : List (String × String)) : Prop := ∀ p ∈ K, cacheEntryOK p.1 p.2

instance (K : List (String × String)) : Decidable (CacheOK K) := by
  unfold CacheOK; infer_instance

/-- A feed with pairwise-distinct, driver-derived ids. -/
def FeedOK (feed : List SourceItem) : Prop :=
  (feed.map SourceItem.comment_id).Nodup ∧ ∀ c ∈ feed, idOK c.comment_id

instance (feed : List SourceItem) : Decidable (FeedOK feed) := by
  unfold FeedOK; infer_instance

/-- The fingerprint function always yields fingerprint-shaped strings. -/
def HashOK (hash : String → String) : Prop := ∀ s, fpOK (hash s)

/-- Every positive gateway answer carries date strings free of tabs and
newlines (the JSON contract; tabs inside a date field would corrupt the
TSV). -/
def GateOK (g : String → GOut) : Prop :=
  ∀ b e m a bi ap ce, g b = GOut.gok e m a bi ap ce →
    noTabNL a ∧ noTabNL bi ∧ noTabNL ap ∧ noTabNL ce

/-- The classification facts at one item's id under which the driver
short-circuits without a gateway call: blank body, deleted/removed sentinel,
negative-cache fingerprint match, or an unchanged positive record.  `d` and
`kf` are the store and negative-cache lookups at the item's id. -/
def SCCondAt (d : Option TimelineRow) (kf : Option String)
    (hash : String → String) (c : SourceItem) : Prop :=
  stripWS c.body.data = [] ∨ c.body = "[deleted]" ∨ c.body = "[removed]"
    ∨ kf = some (hash c.body)
    ∨ (∃ r, d = some r ∧ r.body_hash = hash c.body)

/-! ### Concrete instances for counterexamples and witnesses -/

def rowOldBlank : TimelineRow :=
  { comment_id := "c1", eligibility := "ILR", application_method := "Online",
    application_date := " ", biometric_date := "N/A", approval_date := "N/A",
    ceremony_date := "N/A", body_hash := "h1" }

def rowNewFilled : TimelineRow :=
  { comment_id := "c1", eligibility := "ILR", application_method := "Online",
    application_date := "2025-01-01", biometric_date := "N/A",
    approval_date := "N/A", ceremony_date := "N/A", body_hash := "h2" }

def strBadDate : String := "9999-99-99"

def cid1 : String := "c1"
def bodyB : String := "Got ILR, applied 01/02/2025."
def hashConst : String → String := fun _ => "fp00"

/-- A previously confirmed row whose stored hash matches the current body. -/
def rowStored : TimelineRow :=
  { comment_id := "c1", eligibility := "ILR", application_method := "Online",
    application_date := "2025-02-01", biometric_date := "N/A",
    approval_date := "N/A", ceremony_date := "N/A", body_hash := "fp00" }

/-- A previously confirmed row whose stored hash differs from the current
body's fingerprint (the comment was edited since). -/
def rowStoredOld : TimelineRow :=
  { comment_id := "c1", eligibility := "ILR", application_method := "Online",
    application_date := "2025-02-01", biometric_date := "N/A",
    approval_date := "N/A", ceremony_date := "N/A", body_hash := "fpOLD" }

def gFail : String → GOut := fun _ => GOut.gerr

def gOkFixed : String → GOut :=
  fun _ => GOut.gok "ILR" "Online" "2025-02-01" "N/A" "N/A" "N/A"

def feedOne : List SourceItem := [{ comment_id := "c1", body := bodyB }]
def feedDel : List SourceItem := [{ comment_id := "c1", body := "[deleted]" }]
def feedOther : List SourceItem := [{ comment_id := "c2", body := bodyB }]
def storeOne : List (String × TimelineRow) := [("c1", rowStored)]
def storeOneOld : List (String × TimelineRow) := [("c1", rowStoredOld)]
def cacheOne : List (String × String) := [("c1", "fp00")]

def digitVal (c : Char) : Nat := c.toNat - 48

/-- Modelled from the spec: a syntactically valid calendar date in the fixed
`YYYY-MM-DD` form — ten characters, all-digit components, month in 1..12 and
day within that month's length (Gregorian, with leap years). -/
def validCalendarDate (s : String) : Bool :=
  match s.data with
  | [y1, y2, y3, y4, h1, m1, m2, h2, d1, d2] =>
    y1.isDigit && y2.isDigit && y3.isDigit && y4.isDigit
      && (h1 == '-') && (h2 == '-')
      && m1.isDigit && m2.isDigit && d1.isDigit && d2.isDigit
      &&
      (let y := 1000 * digitVal y1 + 100 * digitVal y2 + 10 * digitVal y3 + digitVal y4
       let m := 10 * digitVal m1 + digitVal m2
       let d := 10 * digitVal d1 + digitVal d2
       let leap := (y % 4 == 0 && y % 100 != 0) || y % 400 == 0
       let maxd : Nat :=
         if m == 2 then (if leap then 29 else 28)
         else if m == 4 || m == 6 || m == 9 || m == 11 then 30
         else 31
       1 ≤ m && m ≤ 12 && 1 ≤ d && d ≤ maxd)
  | _ => false

/-! ## Theorems -/

/-! ### Claim C2: the sticky-date merge law -/

theorem stripWS_empty : stripWS ("" : String).data = [] := rfl

theorem ne_empty_of_stripWS_ne {s : String} (h : stripWS s.data ≠ []) : s ≠ "" := by
  intro he
  subst he
  exact h rfl

/-- Lemma: `_merge_date` agrees everywhere with the amended merge law in
which "known" means "not the sentinel and not blank". -/
theorem merge_date_eq_amended (o n : String) :
    TimelineRow._merge_date o n = mergeDateAmended o n := by
  unfold TimelineRow._merge_date mergeDateAmended knownDateB
  by_cases h1 : o = "N/A" <;> by_cases h2 : stripWS o.data = [] <;>
    by_cases h3 : n = "N/A" <;> by_cases h4 : stripWS n.data = [] <;>
      simp [h1, h2, h3, h4, ne_empty_of_stripWS_ne]

/-- C2 counterexample: the claim reads "known" as "non-empty and not the
sentinel".  The whitespace-only date `" "` is non-empty and not the sentinel,
yet `merge_with` does not keep it: the new value wins. -/
theorem claim_C2_counterexample :
    knownDateClaimed rowOldBlank.application_date
      ∧ (rowOldBlank.merge_with rowNewFilled).application_date
          ≠ rowOldBlank.application_date := by
  constructor
  · decide
  · decide

/-- C2 (amended): for every pair of records sharing an id and each of the
four date fields, the merged field follows the sticky-date law with "known"
read as "not the sentinel and not blank (empty or whitespace-only)": a known
old value is kept regardless of the new value, an unknown old value takes a
known new value, and two unknowns merge to the sentinel. -/
theorem claim_C2_amended_merge_law (old new : TimelineRow) :
    (old.merge_with new).application_date
        = mergeDateAmended old.application_date new.application_date
      ∧ (old.merge_with new).biometric_date
        = mergeDateAmended old.biometric_date new.biometric_date
      ∧ (old.merge_with new).approval_date
        = mergeDateAmended old.approval_date new.approval_date
      ∧ (old.merge_with new).ceremony_date
        = mergeDateAmended old.ceremony_date new.ceremony_date := by
  refine ⟨?_, ?_, ?_, ?_⟩ <;> exact merge_date_eq_amended _ _

/-! ### Claim C3: values the date normalizer lets through -/

/-- C3 counterexample: `sanity_norm_date` passes `9999-99-99` through
unchanged, and that string is neither the sentinel nor a syntactically valid
calendar date (month 99). -/
theorem claim_C3_counterexample :
    sanity_norm_date strBadDate = strBadDate
      ∧ strBadDate ≠ "N/A"
      ∧ validCalendarDate strBadDate = false := by
  refine ⟨?_, ?_, ?_⟩ <;> decide

/-- C3 (amended): every output of the date normalizer is either the unknown
sentinel or a string of the fixed width-10 shape with dashes at positions 4
and 7 (the component characters are not checked to be digits, so shaped
non-dates pass through); no string of any other shape is ever returned. -/
theorem claim_C3_amended_shape (x : String) :
    sanity_norm_date x = "N/A"
      ∨ ((sanity_norm_date x).length = 10
          ∧ (sanity_norm_date x).data.get? 4 = some '-'
          ∧ (sanity_norm_date x).data.get? 7 = some '-') := by
  unfold sanity_norm_date
  split_ifs with h1 h2
  · left; exact h1
  · right; exact h2
  · left; rfl

/-! ### Claim C9: category canonicalization -/

theorem elig_base_cases (u : List Char) :
    elig_base u = "EUSS" ∨ elig_base u = "MN1" ∨ elig_base u = "Form T"
      ∨ elig_base u = "Armed Forces" ∨ elig_base u = "BNO" ∨ elig_base u = "ILR" := by
  unfold elig_base
  split_ifs <;> simp

theorem elig_suffix_cases (u : List Char) :
    elig_suffix u = "" ∨ elig_suffix u = " (+ Marriage)" := by
  unfold elig_suffix
  split_ifs <;> simp

theorem elig_form (x : String) :
    ∃ b s, (b = "EUSS" ∨ b = "MN1" ∨ b = "Form T" ∨ b = "Armed Forces"
        ∨ b = "BNO" ∨ b = "ILR")
      ∧ (s = "" ∨ s = " (+ Marriage)")
      ∧ sanity_normalise_eligibility x = b ++ s :=
  ⟨_, _, elig_base_cases _, elig_suffix_cases _, rfl⟩

/-- C9: category canonicalization is idempotent — applying
`sanity_normalise_eligibility` to its own output returns that output — and
the output is always one of the six canonical base labels with the optional
marriage suffix. -/
theorem claim_C9_canonicalization (x : String) :
    sanity_normalise_eligibility (sanity_normalise_eligibility x)
        = sanity_normalise_eligibility x
      ∧ ∃ b s, b ∈ (["EUSS", "MN1", "Form T", "Armed Forces", "BNO", "ILR"] : List String)
          ∧ s ∈ (["", " (+ Marriage)"] : List String)
          ∧ sanity_normalise_eligibility x = b ++ s := by
  obtain ⟨b, s, hb, hs, h⟩ := elig_form x
  constructor
  · rw [h]
    rcases hb with rfl | rfl | rfl | rfl | rfl | rfl <;> rcases hs with rfl | rfl <;> decide
  · exact ⟨b, s, by rcases hb with rfl | rfl | rfl | rfl | rfl | rfl <;> simp,
      by rcases hs with rfl | rfl <;> simp, h⟩

/-! ### Claim C10: TSV serialisation round trip -/

theorem splitOnCh_ne_nil (ch : Char) (l : List Char) : splitOnCh ch l ≠ [] := by
  induction l with
  | nil => simp [splitOnCh]
  | cons c cs ih =>
    unfold splitOnCh
    cases h : splitOnCh ch cs with
    | nil => simp
    | cons p ps => by_cases hc : c == ch <;> simp [hc]

theorem splitOnCh_eq_self {ch : Char} {l : List Char} (h : ch ∉ l) :
    splitOnCh ch l = [l] := by
  induction l with
  | nil => rfl
  | cons c cs ih =>
    have hc : ¬ c = ch := fun e => h (e ▸ List.mem_cons_self c cs)
    have hcs : ch ∉ cs := fun m => h (List.mem_cons_of_mem _ m)
    unfold splitOnCh
    rw [ih hcs]
    simp [hc]

theorem splitOnCh_append {ch : Char} {x r : List Char} (h : ch ∉ x) :
    splitOnCh ch (x ++ ch :: r) = x :: splitOnCh ch r := by
  induction x with
  | nil =>
    simp only [List.nil_append]
    rw [show splitOnCh ch (ch :: r) = (match splitOnCh ch r with
      | [] => [[]]
      | p :: ps => if ch == ch then [] :: p :: ps else (ch :: p) :: ps) from rfl]
    cases hr : splitOnCh ch r with
    | nil => exact absurd hr (splitOnCh_ne_nil ch r)
    | cons p ps => simp
  | cons c cs ih =>
    have hc : ¬ c = ch := fun e => h (e ▸ List.mem_cons_self c cs)
    have hcs : ch ∉ cs := fun m => h (List.mem_cons_of_mem _ m)
    have ih2 := ih hcs
    show (match splitOnCh ch (cs ++ ch :: r) with
      | [] => [[]]
      | p :: ps => if c == ch then [] :: p :: ps else (c :: p) :: ps) = _
    rw [ih2]
    simp [hc]

theorem mem_tabJoin {c : Char} {ls : List (List Char)} (h : c ∈ tabJoin ls) :
    c = '\t' ∨ ∃ l ∈ ls, c ∈ l := by
  induction ls with
  | nil => simp [tabJoin] at h
  | cons x rest ih =>
    cases rest with
    | nil =>
      simp [tabJoin] at h
      exact Or.inr ⟨x, by simp, h⟩
    | cons y t =>
      rw [show tabJoin (x :: y :: t) = x ++ '\t' :: tabJoin (y :: t) from rfl] at h
      rcases List.mem_append.mp h with hx | htail
      · exact Or.inr ⟨x, by simp, hx⟩
      · rcases List.mem_cons.mp htail with rfl | hrest
        · exact Or.inl rfl
        · rcases ih hrest with h1 | ⟨l, hl, hcl⟩
          · exact Or.inl h1
          · exact Or.inr ⟨l, List.mem_cons_of_mem _ hl, hcl⟩

theorem dropWhile_eq_self_of_not {p : Char → Bool} {l : List Char}
    (h : ∀ c ∈ l, ¬ p c) : l.dropWhile p = l := by
  cases l with
  | nil => rfl
  | cons c cs =>
    rw [List.dropWhile_cons]
    simp [h c (List.mem_cons_self c cs)]

theorem rstripNL_eq_self {l : List Char} (h : '\n' ∉ l) : rstripNL l = l := by
  unfold rstripNL
  rw [dropWhile_eq_self_of_not, List.reverse_reverse]
  intro c hc hpc
  rw [List.mem_reverse] at hc
  exact h (by rwa [show c = '\n' from by simpa using hpc] at hc)

theorem rstripNL_append_nl (l : List Char) : rstripNL (l ++ [('\n' : Char)]) = rstripNL l := by
  unfold rstripNL
  rw [List.reverse_append]
  simp [List.dropWhile_cons]

theorem mk_data (s : String) : String.mk s.data = s := rfl

theorem data_append (a b : String) : (a ++ b).data = a.data ++ b.data := rfl

/-- Lemma: splitting a tab-join of tab-free pieces recovers the pieces. -/
theorem splitOnTab_tabJoin {ls : List (List Char)} (hne : ls ≠ [])
    (h : ∀ l ∈ ls, '\t' ∉ l) : splitOnTab (tabJoin ls) = ls := by
  induction ls with
  | nil => exact absurd rfl hne
  | cons x rest ih =>
    cases rest with
    | nil =>
      exact splitOnCh_eq_self (h x (by simp))
    | cons y t =>
      rw [show tabJoin (x :: y :: t) = x ++ '\t' :: tabJoin (y :: t) from rfl]
      unfold splitOnTab
      rw [splitOnCh_append (h x (by simp))]
      rw [show splitOnCh '\t' (tabJoin (y :: t)) = splitOnTab (tabJoin (y :: t)) from rfl]
      rw [ih (by simp) (fun l hl => h l (List.mem_cons_of_mem _ hl))]

/-- Lemma: a clean row's TSV line, with its trailing newline, parses back to
the row. -/
theorem from_tsv_to_tsv {r : TimelineRow} (h : cleanRow r) :
    TimelineRow.from_tsv_row (r.to_tsv_row ++ "\n") = some r := by
  obtain ⟨h1, h2, h3, h4, h5, h6, h7, h8⟩ := h
  have hfields : ∀ l ∈ [r.comment_id.data, r.eligibility.data,
      r.application_method.data, r.application_date.data, r.biometric_date.data,
      r.approval_date.data, r.ceremony_date.data, r.body_hash.data], '\t' ∉ l := by
    intro l hl
    simp only [List.mem_cons, List.not_mem_nil, or_false] at hl
    rcases hl with rfl | rfl | rfl | rfl | rfl | rfl | rfl | rfl
    exacts [h1.1, h2.1, h3.1, h4.1, h5.1, h6.1, h7.1, h8.1]
  have hnl : ('\n' : Char) ∉ tabJoin [r.comment_id.data, r.eligibility.data,
      r.application_method.data, r.application_date.data, r.biometric_date.data,
      r.approval_date.data, r.ceremony_date.data, r.body_hash.data] := by
    intro hmem
    rcases mem_tabJoin hmem with he | ⟨l, hl, hcl⟩
    · exact absurd he (by decide)
    · simp only [List.mem_cons, List.not_mem_nil, or_false] at hl
      rcases hl with rfl | rfl | rfl | rfl | rfl | rfl | rfl | rfl
      exacts [h1.2 hcl, h2.2 hcl, h3.2 hcl, h4.2 hcl, h5.2 hcl, h6.2 hcl,
        h7.2 hcl, h8.2 hcl]
  unfold TimelineRow.from_tsv_row TimelineRow.tsvParts
  rw [show (TimelineRow.to_tsv_row r ++ ("\n" : String)).data
      = (TimelineRow.to_tsv_row r).data ++ [('\n' : Char)] from rfl]
  rw [show (TimelineRow.to_tsv_row r).data = tabJoin [r.comment_id.data,
      r.eligibility.data, r.application_method.data, r.application_date.data,
      r.biometric_date.data, r.approval_date.data, r.ceremony_date.data,
      r.body_hash.data] from rfl]
  rw [rstripNL_append_nl, rstripNL_eq_self hnl, splitOnTab_tabJoin (by simp) hfields]
  simp [List.getD, mk_data]

/-- C10: for every row whose eight fields contain no tab and no newline,
parsing the serialised TSV line (with its trailing newline) returns the row
unchanged, field for field. -/
theorem claim_C10_roundtrip (r : TimelineRow) (h : cleanRow r) :
    TimelineRow.from_tsv_row (r.to_tsv_row ++ "\n") = some r :=
  from_tsv_to_tsv h

/-- C10 witness: the round trip at a concrete clean row. -/
theorem claim_C10_roundtrip_witness :
    cleanRow rowStored
      ∧ TimelineRow.from_tsv_row (rowStored.to_tsv_row ++ "\n") = some rowStored :=
  ⟨by decide, claim_C10_roundtrip rowStored (by decide)⟩

/-! ### Claim C4: finalisation and the prior snapshot -/

theorem applyOps_writeAll (ss : List String) (s0 : String) (fs : FileSys)
    (h : fs.out = some s0) :
    applyOps fs (ss.map FinOp.writeOut)
      = { out := some (s0 ++ concatStrings ss), inprog := fs.inprog } := by
  induction ss generalizing fs s0 with
  | nil =>
    simp [applyOps, concatStrings]
    cases fs with
    | mk o i => simp_all
  | cons a rest ih =>
    have step1 : applyOp fs (FinOp.writeOut a) = { out := some (s0 ++ a), inprog := fs.inprog } := by
      cases fs with
      | mk o i => simp_all [applyOp]
    show applyOps (applyOp fs (FinOp.writeOut a)) (rest.map FinOp.writeOut) = _
    rw [step1, ih (s0 ++ a) _ rfl]
    simp [concatStrings, String.append_assoc]

theorem applyOps_inprog_invariant (l : List FinOp) (fs : FileSys)
    (h : ∀ op ∈ l, op ≠ FinOp.removeInprog) :
    (applyOps fs l).inprog = fs.inprog := by
  induction l generalizing fs with
  | nil => rfl
  | cons op rest ih =>
    have h1 : (applyOp fs op).inprog = fs.inprog := by
      cases op with
      | truncOut => rfl
      | writeOut s => rfl
      | removeInprog => exact absurd rfl (h _ (by simp))
    show (applyOps (applyOp fs op) rest).inprog = fs.inprog
    rw [ih _ (fun o ho => h o (List.mem_cons_of_mem _ ho)), h1]

/-- A concrete prior state of the two files before finalisation. -/
def fsPrior : FileSys := { out := some "PRIOR SNAPSHOT BYTES", inprog := some "IP" }

/-- C4 counterexample: finalisation does not swap a temporary file over the
snapshot path — it reopens the snapshot path in write mode (truncating it)
and rewrites it in place.  Interrupting after the very first operation
leaves the snapshot file empty: neither the prior snapshot nor the new one.
(The full sequence does produce the new snapshot.) -/
theorem claim_C4_counterexample :
    (applyOps fsPrior ((finalizeOps storeOne).take 1)).out ≠ fsPrior.out
      ∧ (applyOps fsPrior ((finalizeOps storeOne).take 1)).out
          ≠ some (snapshotString storeOne)
      ∧ (applyOps fsPrior (finalizeOps storeOne)).out
          = some (snapshotString storeOne) := by
  refine ⟨?_, ?_, ?_⟩ <;> decide

/-- C4 (amended): the new snapshot is accumulated in the separate in-progress
file during the pass, and finalisation rewrites the output path in place
(truncate, write header, write each id-sorted row) before removing the
in-progress file as its last operation.  Consequently an interruption
anywhere before that last operation leaves the in-progress file (holding the
complete new data) intact — but the prior snapshot bytes at the output path
are not preserved; only the completed sequence leaves the new complete
snapshot at the output path. -/
theorem claim_C4_amended_finalize (m : List (String × TimelineRow)) (fs : FileSys)
    (k : Nat) (hk : k < (finalizeOps m).length) :
    (applyOps fs ((finalizeOps m).take k)).inprog = fs.inprog
      ∧ applyOps fs (finalizeOps m)
          = { out := some (snapshotString m), inprog := fs.inprog >>= fun _ => none } := by
  constructor
  · apply applyOps_inprog_invariant
    intro op hop
    have hlen : (finalizeOps m).length
        = (FinOp.truncOut :: FinOp.writeOut (TSV_HEADER ++ "\n")
            :: (snapPairs m).map (fun p => FinOp.writeOut (p.2.to_tsv_row ++ "\n"))).length + 1 := by
      unfold finalizeOps
      rw [List.length_append]
      rfl
    have hk2 : k ≤ (FinOp.truncOut :: FinOp.writeOut (TSV_HEADER ++ "\n")
        :: (snapPairs m).map (fun p => FinOp.writeOut (p.2.to_tsv_row ++ "\n"))).length := by
      omega
    rw [show (finalizeOps m).take k
        = (FinOp.truncOut :: FinOp.writeOut (TSV_HEADER ++ "\n")
            :: (snapPairs m).map (fun p => FinOp.writeOut (p.2.to_tsv_row ++ "\n"))).take k from by
      unfold finalizeOps
      exact List.take_append_of_le_length hk2] at hop
    have hmem := List.mem_of_mem_take hop
    simp only [List.mem_cons] at hmem
    rcases hmem with rfl | rfl | hmem
    · simp
    · simp
    · rcases List.mem_map.mp hmem with ⟨p, _, rfl⟩
      simp
  · unfold finalizeOps
    rw [applyOps, List.foldl_append]
    have h2 : List.foldl applyOp fs
        (FinOp.truncOut :: FinOp.writeOut (TSV_HEADER ++ "\n")
          :: (snapPairs m).map (fun p => FinOp.writeOut (p.2.to_tsv_row ++ "\n")))
        = { out := some (snapshotString m), inprog := fs.inprog } := by
      show List.foldl applyOp (applyOp (applyOp fs FinOp.truncOut) (FinOp.writeOut (TSV_HEADER ++ "\n")))
          ((snapPairs m).map (fun p => FinOp.writeOut (p.2.to_tsv_row ++ "\n"))) = _
      have hfs : (applyOp (applyOp fs FinOp.truncOut) (FinOp.writeOut (TSV_HEADER ++ "\n"))).out
          = some ("" ++ (TSV_HEADER ++ "\n")) := by
        cases fs with
        | mk o i => rfl
      have hw := applyOps_writeAll ((snapPairs m).map (fun p => p.2.to_tsv_row ++ "\n"))
        ("" ++ (TSV_HEADER ++ "\n"))
        (applyOp (applyOp fs FinOp.truncOut) (FinOp.writeOut (TSV_HEADER ++ "\n"))) hfs
      rw [List.map_map] at hw
      refine hw.trans ?_
      have hinprog : (applyOp (applyOp fs FinOp.truncOut) (FinOp.writeOut (TSV_HEADER ++ "\n"))).inprog
          = fs.inprog := by
        cases fs with
        | mk o i => rfl
      rw [hinprog]
      have hstr : ("" ++ (TSV_HEADER ++ "\n"))
          ++ concatStrings ((snapPairs m).map fun p => p.2.to_tsv_row ++ "\n")
          = snapshotString m := by
        unfold snapshotString renderPairs
        simp [String.append_assoc]
      rw [hstr]
    rw [h2]
    cases hfsi : fs.inprog with
    | none => simp [applyOp]
    | some v => simp [applyOp]

/-- C4 amended witness: the in-progress file survives the interruption after
the first finalisation operation, and the completed sequence yields the new
snapshot at the output path. -/
theorem claim_C4_amended_finalize_witness :
    1 < (finalizeOps storeOne).length
      ∧ ((applyOps fsPrior ((finalizeOps storeOne).take 1)).inprog = fsPrior.inprog
          ∧ applyOps fsPrior (finalizeOps storeOne)
              = { out := some (snapshotString storeOne),
                  inprog := fsPrior.inprog >>= fun _ => none }) :=
  ⟨by decide, claim_C4_amended_finalize storeOne fsPrior 1 (by decide)⟩

/-! ### Association-list lemmas -/

theorem alookup_append {α : Type} (xs ys : List (String × α)) (k : String) :
    alookup (xs ++ ys) k
      = match alookup xs k with
        | some v => some v
        | none => alookup ys k := by
  induction xs with
  | nil => rfl
  | cons p t ih =>
    cases p with
    | mk a b =>
      by_cases h : a = k <;> simp [alookup, h, ih]

theorem alookup_ainsert_self {α : Type} (m : List (String × α)) (k : String) (v : α) :
    alookup (ainsert m k v) k = some v := by
  induction m with
  | nil => simp [ainsert, alookup]
  | cons p t ih =>
    cases p with
    | mk a b =>
      by_cases h : a = k <;> simp [ainsert, alookup, h, ih]

theorem alookup_ainsert_ne {α : Type} (m : List (String × α)) (k k' : String) (v : α)
    (h : k' ≠ k) : alookup (ainsert m k v) k' = alookup m k' := by
  induction m with
  | nil => simp [ainsert, alookup, Ne.symm h]
  | cons p t ih =>
    cases p with
    | mk a b =>
      by_cases ha : a = k
      · subst ha
        simp [ainsert, alookup, Ne.symm h]
      · by_cases ha2 : a = k' <;> simp [ainsert, alookup, ha, ha2, ih, h]

theorem alookup_aerase_self {α : Type} (m : List (String × α)) (k : String) :
    alookup (aerase m k) k = none := by
  induction m with
  | nil => rfl
  | cons p t ih =>
    cases p with
    | mk a b =>
      by_cases h : a = k <;> simp [aerase, alookup, h, ih]

theorem alookup_aerase_ne {α : Type} (m : List (String × α)) (k k' : String)
    (h : k' ≠ k) : alookup (aerase m k) k' = alookup m k' := by
  induction m with
  | nil => rfl
  | cons p t ih =>
    cases p with
    | mk a b =>
      by_cases ha : a = k
      · subst ha
        simp [aerase, alookup, Ne.symm h, ih]
      · by_cases ha2 : a = k' <;> simp [aerase, alookup, ha, ha2, ih, h]

theorem mem_ainsert {α : Type} {p : String × α} {m : List (String × α)}
    {k : String} {v : α} (h : p ∈ ainsert m k v) : p ∈ m ∨ p = (k, v) := by
  induction m with
  | nil =>
    simp [ainsert] at h
    exact Or.inr h
  | cons q t ih =>
    cases q with
    | mk a b =>
      by_cases ha : a = k
      · subst ha
        simp [ainsert] at h
        rcases h with h | h
        · exact Or.inr (by simp [h])
        · exact Or.inl (List.mem_cons_of_mem _ h)
      · simp [ainsert, ha] at h
        rcases h with h | h
        · exact Or.inl (by simp [h])
        · rcases ih h with h2 | h2
          · exact Or.inl (List.mem_cons_of_mem _ h2)
          · exact Or.inr h2

theorem mem_aerase {α : Type} {p : String × α} {m : List (String × α)}
    {k : String} (h : p ∈ aerase m k) : p ∈ m := by
  induction m with
  | nil => simp [aerase] at h
  | cons q t ih =>
    cases q with
    | mk a b =>
      by_cases ha : a = k
      · subst ha
        simp [aerase] at h
        exact List.mem_cons_of_mem _ (ih h)
      · simp [aerase, ha] at h
        rcases h with rfl | h
        · exact List.mem_cons_self _ _
        · exact List.mem_cons_of_mem _ (ih h)

theorem alookup_mem {α : Type} {m : List (String × α)} {k : String} {v : α}
    (h : alookup m k = some v) : (k, v) ∈ m := by
  induction m with
  | nil => simp [alookup] at h
  | cons q t ih =>
    cases q with
    | mk a b =>
      by_cases ha : a = k
      · subst ha
        simp [alookup] at h
        simp [h]
      · simp [alookup, ha] at h
        exact List.mem_cons_of_mem _ (ih h)

theorem alookup_eq_none_iff {α : Type} (m : List (String × α)) (k : String) :
    alookup m k = none ↔ k ∉ m.map Prod.fst := by
  induction m with
  | nil => simp [alookup]
  | cons q t ih =>
    cases q with
    | mk a b =>
      by_cases ha : a = k
      · subst ha
        simp [alookup]
      · simp [alookup, ha, ih, Ne.symm ha]

theorem alookup_eq_of_mem_nodup {α : Type} {m : List (String × α)} {k : String} {v : α}
    (hn : (m.map Prod.fst).Nodup) (h : (k, v) ∈ m) : alookup m k = some v := by
  induction m with
  | nil => simp at h
  | cons q t ih =>
    cases q with
    | mk a b =>
      simp only [List.map_cons, List.nodup_cons] at hn
      rcases List.mem_cons.mp h with he | hm
      · injection he with h1 h2
        subst h1
        subst h2
        simp [alookup]
      · have hak : a ≠ k := by
          intro e
          subst e
          exact hn.1 (List.mem_map.mpr ⟨(a, v), hm, rfl⟩)
        simp [alookup, hak, ih hn.2 hm]

theorem mem_keys_ainsert {α : Type} (m : List (String × α)) (k k' : String) (v : α) :
    k' ∈ (ainsert m k v).map Prod.fst ↔ k' ∈ m.map Prod.fst ∨ k' = k := by
  induction m with
  | nil => simp [ainsert]
  | cons q t ih =>
    cases q with
    | mk a b =>
      by_cases ha : a = k
      · subst ha
        simp [ainsert]
        tauto
      · simp [ainsert, ha, ih]
        tauto

theorem nodup_keys_ainsert {α : Type} {m : List (String × α)} (k : String) (v : α)
    (hn : (m.map Prod.fst).Nodup) : ((ainsert m k v).map Prod.fst).Nodup := by
  induction m with
  | nil => simp [ainsert]
  | cons q t ih =>
    cases q with
    | mk a b =>
      simp only [List.map_cons, List.nodup_cons] at hn
      by_cases ha : a = k
      · subst ha
        rw [show ainsert ((a, b) :: t) a v = (a, v) :: t from by simp [ainsert]]
        simp only [List.map_cons, List.nodup_cons]
        exact ⟨hn.1, hn.2⟩
      · simp only [ainsert, ha, if_false, List.map_cons, List.nodup_cons]
        refine ⟨?_, ih hn.2⟩
        intro hmem
        rcases (mem_keys_ainsert t k a v).mp hmem with h | h
        · exact hn.1 h
        · exact ha h

theorem keys_aerase_sub {α : Type} {m : List (String × α)} {k k' : String}
    (h : k' ∈ (aerase m k).map Prod.fst) : k' ∈ m.map Prod.fst := by
  rcases List.mem_map.mp h with ⟨p, hp, rfl⟩
  exact List.mem_map.mpr ⟨p, mem_aerase hp, rfl⟩

theorem nodup_keys_aerase {α : Type} {m : List (String × α)} (k : String)
    (hn : (m.map Prod.fst).Nodup) : ((aerase m k).map Prod.fst).Nodup := by
  induction m with
  | nil => simp [aerase]
  | cons q t ih =>
    cases q with
    | mk a b =>
      simp only [List.map_cons, List.nodup_cons] at hn
      by_cases ha : a = k
      · subst ha
        simp [aerase, ih hn.2]
      · simp only [aerase, ha, if_false, List.map_cons, List.nodup_cons]
        exact ⟨fun hmem => hn.1 (keys_aerase_sub hmem), ih hn.2⟩

/-! ### Character-membership lemmas for the splitters -/

theorem mem_dropWhile {p : Char → Bool} {l : List Char} {c : Char}
    (h : c ∈ l.dropWhile p) : c ∈ l := by
  induction l with
  | nil => simp at h
  | cons a t ih =>
    rw [List.dropWhile_cons] at h
    split at h
    · exact List.mem_cons_of_mem _ (ih h)
    · exact h

theorem mem_stripWS {l : List Char} {c : Char} (h : c ∈ stripWS l) : c ∈ l := by
  unfold stripWS at h
  rw [List.mem_reverse] at h
  have h2 := mem_dropWhile h
  rw [List.mem_reverse] at h2
  exact mem_dropWhile h2

theorem mem_rstripNL {l : List Char} {c : Char} (h : c ∈ rstripNL l) : c ∈ l := by
  unfold rstripNL at h
  rw [List.mem_reverse] at h
  have h2 := mem_dropWhile h
  rw [List.mem_reverse] at h2
  exact h2

theorem splitOnCh_pieces (ch : Char) (l : List Char) :
    ∀ p ∈ splitOnCh ch l, ch ∉ p := by
  induction l with
  | nil =>
    intro p hp
    simp [splitOnCh] at hp
    simp [hp]
  | cons c cs ih =>
    intro p hp
    unfold splitOnCh at hp
    cases hs : splitOnCh ch cs with
    | nil => exact absurd hs (splitOnCh_ne_nil ch cs)
    | cons p0 ps =>
      rw [hs] at hp
      have ih0 : ch ∉ p0 := ih p0 (by rw [hs]; exact List.mem_cons_self _ _)
      have ihs : ∀ q ∈ ps, ch ∉ q :=
        fun q hq => ih q (by rw [hs]; exact List.mem_cons_of_mem _ hq)
      by_cases hc : c == ch
      · simp only [hc, if_true] at hp
        rcases List.mem_cons.mp hp with rfl | hp2
        · simp
        · rcases List.mem_cons.mp hp2 with rfl | hp3
          · exact ih0
          · exact ihs p hp3
      · simp only [hc, if_false] at hp
        rcases List.mem_cons.mp hp with rfl | hp2
        · intro hmem
          rcases List.mem_cons.mp hmem with he | hm
          · exact hc (by simp [he])
          · exact ih0 hm
        · exact ihs p hp2

theorem splitOnCh_sub (ch : Char) (l : List Char) :
    ∀ p ∈ splitOnCh ch l, ∀ c ∈ p, c ∈ l := by
  induction l with
  | nil =>
    intro p hp
    simp [splitOnCh] at hp
    simp [hp]
  | cons c cs ih =>
    intro p hp d hd
    unfold splitOnCh at hp
    cases hs : splitOnCh ch cs with
    | nil => exact absurd hs (splitOnCh_ne_nil ch cs)
    | cons p0 ps =>
      rw [hs] at hp
      have ih0 : ∀ e ∈ p0, e ∈ cs :=
        fun e he => ih p0 (by rw [hs]; exact List.mem_cons_self _ _) e he
      have ihs : ∀ q ∈ ps, ∀ e ∈ q, e ∈ cs :=
        fun q hq e he => ih q (by rw [hs]; exact List.mem_cons_of_mem _ hq) e he
      by_cases hc : c == ch
      · simp only [hc, if_true] at hp
        rcases List.mem_cons.mp hp with rfl | hp2
        · simp at hd
        · rcases List.mem_cons.mp hp2 with rfl | hp3
          · exact List.mem_cons_of_mem _ (ih0 d hd)
          · exact List.mem_cons_of_mem _ (ihs p hp3 d hd)
      · simp only [hc, if_false] at hp
        rcases List.mem_cons.mp hp with rfl | hp2
        · rcases List.mem_cons.mp hd with rfl | hm
          · simp
          · exact List.mem_cons_of_mem _ (ih0 d hm)
        · exact List.mem_cons_of_mem _ (ihs p hp2 d hd)

/-! ### Sorted-key rendering lemmas -/

theorem mem_keysOf {α : Type} (m : List (String × α)) (k : String) :
    k ∈ keysOf m ↔ alookup m k ≠ none := by
  unfold keysOf
  rw [List.mem_dedup]
  constructor
  · intro h hn
    exact (alookup_eq_none_iff m k).mp hn h
  · intro h
    by_contra hk
    exact h ((alookup_eq_none_iff m k).mpr hk)

theorem sortedKeys_nodup {α : Type} (m : List (String × α)) : (sortedKeys m).Nodup := by
  unfold sortedKeys
  exact ((List.perm_insertionSort _ _).nodup_iff).mpr (List.nodup_dedup _)

theorem mem_sortedKeys {α : Type} (m : List (String × α)) (k : String) :
    k ∈ sortedKeys m ↔ alookup m k ≠ none := by
  unfold sortedKeys
  rw [(List.perm_insertionSort _ _).mem_iff]
  exact mem_keysOf m k

theorem sortedKeys_eq_of_lookup {α β : Type} {m1 : List (String × α)}
    {m2 : List (String × β)}
    (h : ∀ k, alookup m1 k = none ↔ alookup m2 k = none) :
    sortedKeys m1 = sortedKeys m2 := by
  have hperm : List.Perm (sortedKeys m1) (sortedKeys m2) := by
    refine (List.perm_ext_iff_of_nodup (sortedKeys_nodup m1) (sortedKeys_nodup m2)).mpr ?_
    intro a
    rw [mem_sortedKeys, mem_sortedKeys]
    constructor
    · intro ha hb
      exact ha ((h a).mpr hb)
    · intro hb ha
      exact hb ((h a).mp ha)
  have hs1 : List.Sorted (fun a b : String => a ≤ b) (sortedKeys m1) :=
    List.sorted_insertionSort _ _
  have hs2 : List.Sorted (fun a b : String => a ≤ b) (sortedKeys m2) :=
    List.sorted_insertionSort _ _
  exact List.eq_of_perm_of_sorted hperm hs1 hs2

theorem mem_sortedPairs {α : Type} {m : List (String × α)} {p : String × α}
    (h : p ∈ sortedPairs m) : alookup m p.1 = some p.2 := by
  unfold sortedPairs at h
  rcases List.mem_filterMap.mp h with ⟨k, _, he⟩
  cases hl : alookup m k with
  | none =>
    rw [hl] at he
    simp at he
  | some v =>
    rw [hl] at he
    simp at he
    rw [← he]
    exact hl

theorem filterMap_keyed_sublist {α : Type} (f : String → Option (String × α))
    (hf : ∀ k p, f k = some p → p.1 = k) (l : List String) :
    List.Sublist ((l.filterMap f).map Prod.fst) l := by
  induction l with
  | nil => simp
  | cons a t ih =>
    rw [List.filterMap_cons]
    cases hfa : f a with
    | none => exact List.Sublist.cons a ih
    | some p =>
      rw [List.map_cons, hf a p hfa]
      exact List.Sublist.cons₂ a ih

theorem sortedPairs_keys_nodup {α : Type} (m : List (String × α)) :
    ((sortedPairs m).map Prod.fst).Nodup := by
  refine List.Nodup.sublist ?_ (sortedKeys_nodup m)
  unfold sortedPairs
  refine filterMap_keyed_sublist _ ?_ _
  intro k p hp
  cases hl : alookup m k with
  | none =>
    rw [hl] at hp
    simp at hp
  | some v =>
    rw [hl] at hp
    simp at hp
    rw [← hp]

theorem alookup_sortedPairs {α : Type} (m : List (String × α)) (k : String) :
    alookup (sortedPairs m) k = alookup m k := by
  cases hl : alookup m k with
  | some v =>
    refine alookup_eq_of_mem_nodup (sortedPairs_keys_nodup m) ?_
    refine List.mem_filterMap.mpr ⟨k, (mem_sortedKeys m k).mpr (by rw [hl]; simp), ?_⟩
    rw [hl]
    rfl
  | none =>
    rw [alookup_eq_none_iff]
    intro hmem
    rcases List.mem_map.mp hmem with ⟨p, hp, hfst⟩
    have h2 := mem_sortedPairs hp
    rw [hfst, hl] at h2
    exact Option.noConfusion h2

theorem sortedPairs_eq_of_lookup {α : Type} {m1 m2 : List (String × α)}
    (h : ∀ k, alookup m1 k = alookup m2 k) : sortedPairs m1 = sortedPairs m2 := by
  unfold sortedPairs
  rw [show sortedKeys m1 = sortedKeys m2 from
    sortedKeys_eq_of_lookup (fun k => by rw [h k])]
  refine List.filterMap_congr ?_
  intro k _
  rw [h k]

theorem snapshotString_eq_of_lookup {m1 m2 : List (String × TimelineRow)}
    (h : ∀ k, alookup m1 k = alookup m2 k) : snapshotString m1 = snapshotString m2 := by
  unfold snapshotString snapPairs
  rw [sortedPairs_eq_of_lookup h]

/-! ### Parsing the rendered files back (round trips at file level) -/

theorem from_tsv_row_append_nl (line : String) :
    TimelineRow.from_tsv_row (line ++ "\n") = TimelineRow.from_tsv_row line := by
  unfold TimelineRow.from_tsv_row TimelineRow.tsvParts
  rw [show (line ++ ("\n" : String)).data = line.data ++ [('\n' : Char)] from rfl]
  rw [rstripNL_append_nl]

/-- A clean row's TSV line (no trailing newline) parses back to the row. -/
theorem from_tsv_core {r : TimelineRow} (h : cleanRow r) :
    TimelineRow.from_tsv_row r.to_tsv_row = some r := by
  rw [← from_tsv_row_append_nl]
  exact from_tsv_to_tsv h

theorem to_tsv_row_no_nl {r : TimelineRow} (h : cleanRow r) :
    ('\n' : Char) ∉ (r.to_tsv_row).data := by
  obtain ⟨h1, h2, h3, h4, h5, h6, h7, h8⟩ := h
  intro hmem
  rcases mem_tabJoin hmem with he | ⟨l, hl, hcl⟩
  · exact absurd he (by decide)
  · simp only [List.mem_cons, List.not_mem_nil, or_false] at hl
    rcases hl with rfl | rfl | rfl | rfl | rfl | rfl | rfl | rfl
    exacts [h1.2 hcl, h2.2 hcl, h3.2 hcl, h4.2 hcl, h5.2 hcl, h6.2 hcl,
      h7.2 hcl, h8.2 hcl]

theorem TSV_HEADER_no_nl : ('\n' : Char) ∉ TSV_HEADER.data := by decide

theorem from_tsv_row_empty : TimelineRow.from_tsv_row "" = none := by decide

theorem splitNL_join (ss : List String) (h : ∀ s ∈ ss, ('\n' : Char) ∉ s.data) :
    splitOnNL (concatStrings (ss.map (fun s => s ++ "\n"))).data
      = ss.map String.data ++ [[]] := by
  induction ss with
  | nil => rfl
  | cons s rest ih =>
    have hdata : (concatStrings ((s :: rest).map (fun s => s ++ "\n"))).data
        = s.data ++ '\n' :: (concatStrings (rest.map (fun s => s ++ "\n"))).data := by
      show ((s ++ "\n") ++ concatStrings (rest.map (fun s => s ++ "\n"))).data = _
      rw [data_append, data_append]
      simp
    rw [hdata]
    show splitOnCh '\n' _ = _
    rw [splitOnCh_append (h s (List.mem_cons_self _ _))]
    rw [show splitOnCh '\n' (concatStrings (rest.map (fun s => s ++ "\n"))).data
        = splitOnNL (concatStrings (rest.map (fun s => s ++ "\n"))).data from rfl]
    rw [ih (fun x hx => h x (List.mem_cons_of_mem _ hx))]
    simp

theorem linesOf_joined (lines : List String) (h : ∀ s ∈ lines, ('\n' : Char) ∉ s.data) :
    linesOf (concatStrings (lines.map (fun s => s ++ "\n"))) = lines ++ [""] := by
  unfold linesOf
  rw [splitNL_join lines h]
  rw [List.map_append, List.map_map]
  have hmk : ((fun l => String.mk l) ∘ String.data) = id := funext mk_data
  simp [hmk]

theorem renderPairs_as_lines (ws : List (String × TimelineRow)) :
    renderPairs ws
      = concatStrings ((TSV_HEADER :: ws.map (fun p => p.2.to_tsv_row)).map
          (fun s => s ++ "\n")) := by
  unfold renderPairs
  rw [List.map_cons, List.map_map]
  rfl

theorem alookup_foldl_ainsert {α : Type} (ws : List (String × α))
    (hnd : (ws.map Prod.fst).Nodup) :
    ∀ (m0 : List (String × α)) (k : String),
      alookup (ws.foldl (fun m p => ainsert m p.1 p.2) m0) k
        = match alookup ws k with
          | some v => some v
          | none => alookup m0 k := by
  induction ws with
  | nil =>
    intro m0 k
    rfl
  | cons p t ih =>
    intro m0 k
    cases p with
    | mk a b =>
      simp only [List.map_cons, List.nodup_cons] at hnd
      rw [List.foldl_cons]
      rw [ih hnd.2]
      by_cases hk : a = k
      · subst hk
        have ht : alookup t a = none := (alookup_eq_none_iff t a).mpr hnd.1
        rw [ht]
        simp [alookup, alookup_ainsert_self]
      · have hlk : alookup ((a, b) :: t) k = alookup t k := by
          simp [alookup, hk]
        rw [hlk]
        cases hmt : alookup t k with
        | some v => simp
        | none => simp [alookup_ainsert_ne _ _ _ _ (fun e => hk e.symm)]

/-- Re-reading the rendered pair file recovers exactly the fold of the pairs
(later lines overwrite earlier ones, rows with empty ids are dropped —
neither occurs for well-formed pairs). -/
theorem read_renderPairs (ws : List (String × TimelineRow))
    (hOK : ∀ p ∈ ws, pairOK p) :
    read_existing_data (renderPairs ws)
      = ws.foldl (fun m p => ainsert m p.1 p.2) [] := by
  unfold read_existing_data
  rw [renderPairs_as_lines]
  rw [linesOf_joined (TSV_HEADER :: ws.map (fun p => p.2.to_tsv_row)) ?hnl]
  case hnl =>
    intro s hs
    rcases List.mem_cons.mp hs with rfl | hs2
    · exact TSV_HEADER_no_nl
    · rcases List.mem_map.mp hs2 with ⟨p, hp, rfl⟩
      exact to_tsv_row_no_nl (hOK p hp).1
  rw [show ((TSV_HEADER :: ws.map (fun p => p.2.to_tsv_row)) ++ [""]).drop 1
      = ws.map (fun p => p.2.to_tsv_row) ++ [""] from by simp]
  rw [List.foldl_append]
  have hrows : ∀ (m0 : List (String × TimelineRow)),
      (∀ p ∈ ws, pairOK p) →
      (ws.map (fun p => p.2.to_tsv_row)).foldl
        (fun m line =>
          match TimelineRow.from_tsv_row line with
          | some row => if row.comment_id ≠ "" then ainsert m row.comment_id row else m
          | none => m) m0
      = ws.foldl (fun m p => ainsert m p.1 p.2) m0 := by
    clear hOK
    induction ws with
    | nil =>
      intro m0 _
      rfl
    | cons p t ih =>
      intro m0 hOK2
      have hp := hOK2 p (List.mem_cons_self _ _)
      rw [List.map_cons, List.foldl_cons, List.foldl_cons]
      rw [show (match TimelineRow.from_tsv_row p.2.to_tsv_row with
          | some row => if row.comment_id ≠ "" then ainsert m0 row.comment_id row else m0
          | none => m0)
          = ainsert m0 p.1 p.2 from by
        rw [from_tsv_core hp.1]
        simp only [hp.2.1]
        simp [hp.2.2]]
      exact ih _ (fun q hq => hOK2 q (List.mem_cons_of_mem _ hq))
  rw [hrows [] hOK]
  rw [show List.foldl
      (fun m line =>
        match TimelineRow.from_tsv_row line with
        | some row => if row.comment_id ≠ "" then ainsert m row.comment_id row else m
        | none => m)
      (ws.foldl (fun m p => ainsert m p.1 p.2) []) [""]
      = ws.foldl (fun m p => ainsert m p.1 p.2) [] from by
    rw [List.foldl_cons, from_tsv_row_empty]
    rfl]

/-- Lookup-level round trip for the rendered pair file. -/
theorem alookup_read_renderPairs (ws : List (String × TimelineRow))
    (hOK : ∀ p ∈ ws, pairOK p) (hnd : (ws.map Prod.fst).Nodup) (k : String) :
    alookup (read_existing_data (renderPairs ws)) k = alookup ws k := by
  rw [read_renderPairs ws hOK]
  rw [alookup_foldl_ainsert ws hnd []]
  cases h : alookup ws k <;> rfl

/-! ### Every parsed store is well-formed -/

theorem getD_noTabNL {ps : List String} (hps : ∀ s ∈ ps, noTabNL s) (i : Nat) :
    noTabNL (ps.getD i "") := by
  rw [List.getD_eq_getD_get? ps "" i]
  cases hq : ps.get? i with
  | none => exact ⟨by simp, by simp⟩
  | some s => exact hps s (List.get?_mem hq)

/-- Any row produced by `from_tsv_row` from a newline-free line has clean
fields: tab-freeness because the fields are split pieces, newline-freeness
because they are substrings of the line. -/
theorem from_tsv_row_clean {line : String} (hnl : ('\n' : Char) ∉ line.data)
    {row : TimelineRow} (h : TimelineRow.from_tsv_row line = some row) :
    cleanRow row := by
  unfold TimelineRow.from_tsv_row at h
  have hclean : ∀ s ∈ TimelineRow.tsvParts line, noTabNL s := by
    intro s hs
    unfold TimelineRow.tsvParts at hs
    rcases List.mem_map.mp hs with ⟨p, hp, rfl⟩
    constructor
    · exact splitOnCh_pieces '\t' (rstripNL line.data) p hp
    · intro hc
      exact hnl (mem_rstripNL (splitOnCh_sub '\t' (rstripNL line.data) p hp '\n' hc))
  split at h
  · exact Option.noConfusion h
  · have hrow := Option.some.inj h
    rw [← hrow]
    refine ⟨getD_noTabNL hclean 0, getD_noTabNL hclean 1, getD_noTabNL hclean 2,
      getD_noTabNL hclean 3, getD_noTabNL hclean 4, getD_noTabNL hclean 5,
      getD_noTabNL hclean 6, ?_⟩
    by_cases h7 : 7 < (TimelineRow.tsvParts line).length
    · simp only [h7, if_true]
      exact getD_noTabNL hclean 7
    · simp only [h7, if_false]
      exact ⟨by simp, by simp⟩

theorem linesOf_no_nl (content : String) :
    ∀ line ∈ linesOf content, ('\n' : Char) ∉ line.data := by
  intro line hl
  unfold linesOf at hl
  rcases List.mem_map.mp hl with ⟨p, hp, rfl⟩
  exact splitOnCh_pieces '\n' content.data p hp

theorem read_existing_data_props (content : String) :
    (∀ p ∈ read_existing_data content, pairOK p)
      ∧ ((read_existing_data content).map Prod.fst).Nodup := by
  unfold read_existing_data
  have hlines : ∀ line ∈ (linesOf content).drop 1, ('\n' : Char) ∉ line.data :=
    fun line hl => linesOf_no_nl content line (List.mem_of_mem_drop hl)
  generalize hls : (linesOf content).drop 1 = ls at hlines
  clear hls
  have main : ∀ (ls : List String), (∀ line ∈ ls, ('\n' : Char) ∉ line.data) →
      ∀ (m0 : List (String × TimelineRow)), (∀ p ∈ m0, pairOK p) →
        ((m0.map Prod.fst).Nodup) →
        (∀ p ∈ ls.foldl (fun m line =>
            match TimelineRow.from_tsv_row line with
            | some row => if row.comment_id ≠ "" then ainsert m row.comment_id row else m
            | none => m) m0, pairOK p)
          ∧ (((ls.foldl (fun m line =>
            match TimelineRow.from_tsv_row line with
            | some row => if row.comment_id ≠ "" then ainsert m row.comment_id row else m
            | none => m) m0).map Prod.fst).Nodup) := by
    intro ls
    induction ls with
    | nil =>
      intro _ m0 h0 hn0
      exact ⟨h0, hn0⟩
    | cons line rest ih =>
      intro hln m0 h0 hn0
      rw [List.foldl_cons]
      refine ih (fun x hx => hln x (List.mem_cons_of_mem _ hx)) _ ?_ ?_
      · intro p hp
        revert hp
        cases hr : TimelineRow.from_tsv_row line with
        | none =>
          intro hp
          exact h0 p hp
        | some row =>
          intro hp
          dsimp only at hp
          by_cases hid : row.comment_id ≠ ""
          · rw [if_pos hid] at hp
            rcases mem_ainsert hp with hplt | rfl
            · exact h0 p hplt
            · exact ⟨from_tsv_row_clean (hln line (List.mem_cons_self _ _)) hr, rfl, hid⟩
          · rw [if_neg hid] at hp
            exact h0 p hp
      · cases hr : TimelineRow.from_tsv_row line with
        | none =>
          exact hn0
        | some row =>
          dsimp only
          by_cases hid : row.comment_id ≠ ""
          · rw [if_pos hid]
            exact nodup_keys_ainsert _ _ hn0
          · rw [if_neg hid]
            exact hn0
  exact main ls hlines [] (by simp) (by simp)

theorem read_existing_data_StoreOK (content : String) :
    StoreOK (read_existing_data content) := by
  obtain ⟨hOK, hnd⟩ := read_existing_data_props content
  exact ⟨hnd, fun p hp => (hOK p hp).2.1, fun p hp => ⟨(hOK p hp).1, (hOK p hp).2.2⟩⟩

/-! ### Skipped-cache file round trip -/

theorem length_dropWhile_le (p : Char → Bool) (l : List Char) :
    (l.dropWhile p).length ≤ l.length := by
  induction l with
  | nil => simp
  | cons c t ih =>
    rw [List.dropWhile_cons]
    split
    · exact Nat.le_succ_of_le ih
    · simp

theorem not_head_of_dropWhile_eq {p : Char → Bool} {c : Char} {t : List Char}
    (h : (c :: t).dropWhile p = c :: t) : ¬ (p c = true) := by
  intro hp
  rw [List.dropWhile_cons, if_pos hp] at h
  have hlen := congrArg List.length h
  have hle := length_dropWhile_le p t
  simp at hlen
  omega

theorem data_ne_nil {s : String} (h : s ≠ "") : s.data ≠ [] := by
  intro hd
  apply h
  rw [← mk_data s, hd]

theorem cache_line_data (k v : String) :
    ((k ++ "\t") ++ v).data = k.data ++ '\t' :: v.data := by
  rw [data_append, data_append]
  simp

theorem cache_line_no_nl {k v : String} (hk : idOK k) (hv : fpOK v) :
    ('\n' : Char) ∉ ((k ++ "\t") ++ v).data := by
  rw [cache_line_data]
  intro hmem
  rcases List.mem_append.mp hmem with hm | hm
  · exact hk.2.1.2 hm
  · rcases List.mem_cons.mp hm with he | hm2
    · exact absurd he (by decide)
    · exact hv.2.1.2 hm2

theorem cache_line_parse {k v : String} (hk : idOK k) (hv : fpOK v) :
    splitOnTab (stripWS (k.data ++ '\t' :: v.data)) = [k.data, v.data] := by
  have h1 : (k.data ++ '\t' :: v.data).dropWhile Char.isWhitespace
      = k.data ++ '\t' :: v.data := by
    cases hkd : k.data with
    | nil => exact absurd hkd (data_ne_nil hk.1)
    | cons c t =>
      have hdw := hk.2.2
      rw [hkd] at hdw
      have hc := not_head_of_dropWhile_eq hdw
      rw [List.cons_append, List.dropWhile_cons, if_neg hc]
  have hrev : (k.data ++ '\t' :: v.data).reverse
      = v.data.reverse ++ '\t' :: k.data.reverse := by
    simp
  have h2 : (k.data ++ '\t' :: v.data).reverse.dropWhile Char.isWhitespace
      = (k.data ++ '\t' :: v.data).reverse := by
    rw [hrev]
    cases hvd : v.data.reverse with
    | nil =>
      exact absurd (List.reverse_eq_nil_iff.mp hvd) (data_ne_nil hv.1)
    | cons c t =>
      have hdw := hv.2.2
      rw [hvd] at hdw
      have hc := not_head_of_dropWhile_eq hdw
      rw [List.cons_append, List.dropWhile_cons, if_neg hc]
  have hstrip : stripWS (k.data ++ '\t' :: v.data) = k.data ++ '\t' :: v.data := by
    unfold stripWS
    rw [h1, h2, List.reverse_reverse]
  rw [hstrip]
  show splitOnCh '\t' _ = _
  rw [splitOnCh_append hk.2.1.1]
  rw [show splitOnCh '\t' v.data = [v.data] from splitOnCh_eq_self hv.2.1.1]

theorem parseSkipped_roundtrip (K : List (String × String)) (hC : CacheOK K)
    (k : String) :
    alookup (parseSkipped (skippedString K)) k = alookup K k := by
  have hOK : ∀ p ∈ sortedPairs K, cacheEntryOK p.1 p.2 :=
    fun p hp => hC p (alookup_mem (mem_sortedPairs hp))
  unfold parseSkipped skippedString
  rw [show (fun p : String × String => (p.1 ++ "\t" ++ p.2) ++ "\n")
      = ((fun s => s ++ "\n") ∘ (fun p : String × String => (p.1 ++ "\t") ++ p.2)) from rfl]
  rw [← List.map_map]
  rw [linesOf_joined _ (by
    intro s hs
    rcases List.mem_map.mp hs with ⟨p, hp, rfl⟩
    exact cache_line_no_nl (hOK p hp).1 (hOK p hp).2)]
  rw [List.foldl_append]
  have hmain : ∀ (ps : List (String × String)) (m0 : List (String × String)),
      (∀ p ∈ ps, cacheEntryOK p.1 p.2) →
      (ps.map (fun p => (p.1 ++ "\t") ++ p.2)).foldl
        (fun m line =>
          match splitOnTab (stripWS line.data) with
          | [a, b] => ainsert m (String.mk a) (String.mk b)
          | _ => m) m0
      = ps.foldl (fun m p => ainsert m p.1 p.2) m0 := by
    intro ps
    induction ps with
    | nil =>
      intro m0 _
      rfl
    | cons p t ih =>
      intro m0 hOK2
      have hp := hOK2 p (List.mem_cons_self _ _)
      rw [List.map_cons, List.foldl_cons, List.foldl_cons]
      rw [show (match splitOnTab (stripWS ((p.1 ++ "\t") ++ p.2).data) with
          | [a, b] => ainsert m0 (String.mk a) (String.mk b)
          | _ => m0)
          = ainsert m0 p.1 p.2 from by
        rw [cache_line_data, cache_line_parse hp.1 hp.2]]
      exact ih _ (fun q hq => hOK2 q (List.mem_cons_of_mem _ hq))
  rw [hmain (sortedPairs K) [] hOK]
  rw [show List.foldl
      (fun m line =>
        match splitOnTab (stripWS line.data) with
        | [a, b] => ainsert m (String.mk a) (String.mk b)
        | _ => m)
      ((sortedPairs K).foldl (fun m p => ainsert m p.1 p.2) []) [""]
      = (sortedPairs K).foldl (fun m p => ainsert m p.1 p.2) [] from by
    rfl]
  rw [alookup_foldl_ainsert (sortedPairs K) (sortedPairs_keys_nodup K) []]
  cases h : alookup (sortedPairs K) k with
  | some v =>
    dsimp only
    rw [← alookup_sortedPairs K k, h]
  | none =>
    dsimp only
    rw [← alookup_sortedPairs K k, h]
    rfl

/-! ### Case analysis of one driver step -/

theorem step_char (hash : String → String) (g : String → GOut) (st : RunState)
    (c : SourceItem) :
    (stripWS c.body.data = [] ∧ step hash g st c = st)
    ∨ ((c.body = "[deleted]" ∨ c.body = "[removed]")
        ∧ ∃ row, alookup st.data c.comment_id = some row
          ∧ step hash g st c = writeRow st c.comment_id row)
    ∨ ((c.body = "[deleted]" ∨ c.body = "[removed]")
        ∧ alookup st.data c.comment_id = none ∧ step hash g st c = st)
    ∨ (alookup st.skipped c.comment_id = some (hash c.body) ∧ step hash g st c = st)
    ∨ (∃ row, alookup st.data c.comment_id = some row ∧ row.body_hash = hash c.body
        ∧ step hash g st c = writeRow st c.comment_id row)
    ∨ (stripWS c.body.data ≠ []
        ∧ ¬(c.body = "[deleted]" ∨ c.body = "[removed]")
        ∧ alookup st.skipped c.comment_id ≠ some (hash c.body)
        ∧ (alookup st.data c.comment_id = none
            ∨ ∃ row, alookup st.data c.comment_id = some row
                ∧ row.body_hash ≠ hash c.body)
        ∧ process_comment g hash c.comment_id c.body = none
        ∧ step hash g st c
            = { st with calls := st.calls ++ [(c.comment_id, c.body)],
                        data := aerase st.data c.comment_id,
                        skipped := ainsert st.skipped c.comment_id (hash c.body) })
    ∨ (∃ nr, stripWS c.body.data ≠ []
        ∧ ¬(c.body = "[deleted]" ∨ c.body = "[removed]")
        ∧ alookup st.skipped c.comment_id ≠ some (hash c.body)
        ∧ alookup st.data c.comment_id = none
        ∧ process_comment g hash c.comment_id c.body = some nr
        ∧ step hash g st c
            = writeRow { st with calls := st.calls ++ [(c.comment_id, c.body)],
                                 data := ainsert st.data c.comment_id nr }
                c.comment_id nr)
    ∨ (∃ row nr, stripWS c.body.data ≠ []
        ∧ ¬(c.body = "[deleted]" ∨ c.body = "[removed]")
        ∧ alookup st.skipped c.comment_id ≠ some (hash c.body)
        ∧ alookup st.data c.comment_id = some row
        ∧ row.body_hash ≠ hash c.body
        ∧ process_comment g hash c.comment_id c.body = some nr
        ∧ step hash g st c
            = writeRow { st with calls := st.calls ++ [(c.comment_id, c.body)],
                                 data := ainsert st.data c.comment_id (row.merge_with nr) }
                c.comment_id (row.merge_with nr)) := by
  unfold step
  by_cases h1 : stripWS c.body.data = []
  · rw [if_pos h1]
    exact Or.inl ⟨h1, rfl⟩
  · rw [if_neg h1]
    by_cases h2 : c.body = "[deleted]" ∨ c.body = "[removed]"
    · rw [if_pos h2]
      cases hd : alookup st.data c.comment_id with
      | some row => exact Or.inr (Or.inl ⟨h2, row, rfl, rfl⟩)
      | none => exact Or.inr (Or.inr (Or.inl ⟨h2, rfl, rfl⟩))
    · rw [if_neg h2]
      by_cases h3 : alookup st.skipped c.comment_id = some (hash c.body)
      · rw [if_pos h3]
        exact Or.inr (Or.inr (Or.inr (Or.inl ⟨h3, rfl⟩)))
      · rw [if_neg h3]
        cases hd : alookup st.data c.comment_id with
        | some row =>
          dsimp only
          by_cases h4 : row.body_hash = hash c.body
          · rw [if_pos h4]
            exact Or.inr (Or.inr (Or.inr (Or.inr (Or.inl ⟨row, rfl, h4, rfl⟩))))
          · rw [if_neg h4]
            cases hp : process_comment g hash c.comment_id c.body with
            | none =>
              exact Or.inr (Or.inr (Or.inr (Or.inr (Or.inr (Or.inl
                ⟨h1, h2, h3, Or.inr ⟨row, rfl, h4⟩, rfl, rfl⟩)))))
            | some nr =>
              exact Or.inr (Or.inr (Or.inr (Or.inr (Or.inr (Or.inr (Or.inr
                ⟨row, nr, h1, h2, h3, rfl, h4, rfl, rfl⟩))))))
        | none =>
          cases hp : process_comment g hash c.comment_id c.body with
          | none =>
            exact Or.inr (Or.inr (Or.inr (Or.inr (Or.inr (Or.inl
              ⟨h1, h2, h3, Or.inl rfl, rfl, rfl⟩)))))
          | some nr =>
            exact Or.inr (Or.inr (Or.inr (Or.inr (Or.inr (Or.inr (Or.inl
              ⟨nr, h1, h2, h3, rfl, rfl, rfl⟩))))))

/-! ### Cleanliness of driver-produced rows -/

theorem elig_clean (x : String) : noTabNL (sanity_normalise_eligibility x) := by
  obtain ⟨b, s, hb, hs, h⟩ := elig_form x
  rw [h]
  rcases hb with rfl | rfl | rfl | rfl | rfl | rfl <;> rcases hs with rfl | rfl <;> decide

theorem method_clean (m : String) : noTabNL (normMethod m) := by
  unfold normMethod
  split_ifs with h
  · rcases h with h | h | h <;> rw [h] <;> decide
  · decide

theorem date_clean {x : String} (hx : noTabNL x) : noTabNL (sanity_norm_date x) := by
  have hval : noTabNL (normDateVal x) := by
    constructor
    · intro hm
      exact hx.1 (mem_stripWS hm)
    · intro hm
      exact hx.2 (mem_stripWS hm)
  unfold sanity_norm_date
  split_ifs with h1 h2
  · exact hval
  · exact hval
  · decide

theorem process_comment_clean {g : String → GOut} {hash : String → String}
    {cid body : String} {row : TimelineRow} (hG : GateOK g) (hH : HashOK hash)
    (hcid : noTabNL cid) (h : process_comment g hash cid body = some row) :
    cleanRow row ∧ row.comment_id = cid ∧ row.body_hash = hash body := by
  unfold process_comment at h
  cases hg : g body with
  | gerr =>
    rw [hg] at h
    exact Option.noConfusion h
  | gskip =>
    rw [hg] at h
    exact Option.noConfusion h
  | gok e m a bi ap ce =>
    rw [hg] at h
    have hrow := Option.some.inj h
    obtain ⟨ha, hbi, hap, hce⟩ := hG body e m a bi ap ce hg
    rw [← hrow]
    exact ⟨⟨hcid, elig_clean e, method_clean m, date_clean ha, date_clean hbi,
      date_clean hap, date_clean hce, (hH body).2.1⟩, rfl, rfl⟩

theorem merge_date_cases (o n : String) :
    TimelineRow._merge_date o n = o ∨ TimelineRow._merge_date o n = n
      ∨ TimelineRow._merge_date o n = "N/A" := by
  unfold TimelineRow._merge_date
  split_ifs <;> simp

theorem merge_clean {a b : TimelineRow} (ha : cleanRow a) (hb : cleanRow b) :
    cleanRow (a.merge_with b) := by
  obtain ⟨a1, a2, a3, a4, a5, a6, a7, a8⟩ := ha
  obtain ⟨b1, b2, b3, b4, b5, b6, b7, b8⟩ := hb
  refine ⟨a1, b2, b3, ?_, ?_, ?_, ?_, b8⟩ <;>
    [rcases merge_date_cases a.application_date b.application_date with h | h | h;
     rcases merge_date_cases a.biometric_date b.biometric_date with h | h | h;
     rcases merge_date_cases a.approval_date b.approval_date with h | h | h;
     rcases merge_date_cases a.ceremony_date b.ceremony_date with h | h | h] <;>
    (show noTabNL (TimelineRow._merge_date _ _); rw [h]) <;>
    first
    | assumption
    | decide

/-! ### `writeRow` facts -/

theorem writeRow_data (st : RunState) (cid : String) (r : TimelineRow) :
    (writeRow st cid r).data = st.data := by
  unfold writeRow
  split <;> rfl

theorem writeRow_skipped (st : RunState) (cid : String) (r : TimelineRow) :
    (writeRow st cid r).skipped = st.skipped := by
  unfold writeRow
  split <;> rfl

theorem writeRow_calls (st : RunState) (cid : String) (r : TimelineRow) :
    (writeRow st cid r).calls = st.calls := by
  unfold writeRow
  split <;> rfl

theorem writeRow_written (st : RunState) (cid : String) (r : TimelineRow) :
    (writeRow st cid r).written = st.written
      ∨ (cid ∉ writtenKeys st
          ∧ (writeRow st cid r).written = st.written ++ [(cid, r)]) := by
  unfold writeRow
  split
  · exact Or.inl rfl
  · exact Or.inr ⟨by assumption, rfl⟩

theorem nodup_append_singleton {l : List String} {a : String} (ha : a ∉ l)
    (hl : l.Nodup) : (l ++ [a]).Nodup := by
  rw [List.nodup_append]
  exact ⟨hl, List.nodup_singleton a, by simpa using ha⟩

theorem writtenKeys_writeRow (st : RunState) (cid : String) (r : TimelineRow) :
    writtenKeys (writeRow st cid r) = writtenKeys st
      ∨ (cid ∉ writtenKeys st
          ∧ writtenKeys (writeRow st cid r) = writtenKeys st ++ [cid]) := by
  rcases writeRow_written st cid r with he | ⟨hni, he⟩
  · exact Or.inl (by unfold writtenKeys; rw [he])
  · refine Or.inr ⟨hni, ?_⟩
    unfold writtenKeys
    rw [he, List.map_append]
    rfl

theorem writeRow_mem {st : RunState} {cid : String} {r : TimelineRow}
    {p : String × TimelineRow} (h : p ∈ (writeRow st cid r).written) :
    p ∈ st.written ∨ p = (cid, r) := by
  rcases writeRow_written st cid r with he | ⟨_, he⟩
  · rw [he] at h
    exact Or.inl h
  · rw [he] at h
    rcases List.mem_append.mp h with h2 | h2
    · exact Or.inl h2
    · exact Or.inr (by simpa using h2)

/-- Preservation of the driver's structural invariants by one step: data and
written rows stay well-formed, written keys stay distinct, every written row
still agrees with the store at its key (given the stepped id was not written
before), and at most the stepped id is appended to the written keys. -/
theorem step_master {hash : String → String} {g : String → GOut}
    (hH : HashOK hash) (hG : GateOK g) (st : RunState) (c : SourceItem)
    (hid : idOK c.comment_id)
    (hd1 : ∀ p ∈ st.data, pairOK p) (hd2 : (st.data.map Prod.fst).Nodup)
    (hw1 : ∀ p ∈ st.written, pairOK p) (hw2 : (st.written.map Prod.fst).Nodup)
    (hw3 : ∀ p ∈ st.written, alookup st.data p.1 = some p.2)
    (hfresh : c.comment_id ∉ writtenKeys st) :
    (∀ p ∈ (step hash g st c).data, pairOK p)
      ∧ ((step hash g st c).data.map Prod.fst).Nodup
      ∧ (∀ p ∈ (step hash g st c).written, pairOK p)
      ∧ ((step hash g st c).written.map Prod.fst).Nodup
      ∧ (∀ p ∈ (step hash g st c).written,
          alookup (step hash g st c).data p.1 = some p.2)
      ∧ (writtenKeys (step hash g st c) = writtenKeys st
          ∨ writtenKeys (step hash g st c) = writtenKeys st ++ [c.comment_id]) := by
  have hWK : ∀ (st2 : RunState) (r : TimelineRow),
      st2.written = st.written →
      (writtenKeys (writeRow st2 c.comment_id r) = writtenKeys st
        ∨ writtenKeys (writeRow st2 c.comment_id r) = writtenKeys st ++ [c.comment_id]) := by
    intro st2 r hwr
    have hkeys : writtenKeys st2 = writtenKeys st := by
      unfold writtenKeys
      rw [hwr]
    rcases writtenKeys_writeRow st2 c.comment_id r with he | ⟨_, he⟩
    · rw [he, hkeys]
      exact Or.inl rfl
    · rw [he, hkeys]
      exact Or.inr rfl
  have hDnodup : ∀ (st2 : RunState) (r : TimelineRow),
      st2.written = st.written →
      ((writeRow st2 c.comment_id r).written.map Prod.fst).Nodup := by
    intro st2 r hwr
    rcases writeRow_written st2 c.comment_id r with he | ⟨hni, he⟩
    · rw [he, hwr]
      exact hw2
    · rw [he, List.map_append, hwr]
      refine nodup_append_singleton ?_ hw2
      unfold writtenKeys at hni
      rw [hwr] at hni
      exact hni
  rcases step_char hash g st c with
    ⟨_, heq⟩ | ⟨_, row, hlk, heq⟩ | ⟨_, _, heq⟩ | ⟨_, heq⟩
    | ⟨row, hlk, _, heq⟩ | ⟨_, _, _, _, _, heq⟩ | ⟨nr, _, _, _, hlk, hp, heq⟩
    | ⟨row, nr, _, _, _, hlk, _, hp, heq⟩
  -- (1) blank body: state unchanged
  · rw [heq]
    exact ⟨hd1, hd2, hw1, hw2, hw3, Or.inl rfl⟩
  -- (2) deleted/removed with a prior record: carry it forward
  · rw [heq]
    have hpair : pairOK (c.comment_id, row) := hd1 _ (alookup_mem hlk)
    refine ⟨?_, ?_, ?_, ?_, ?_, ?_⟩
    · rw [writeRow_data]
      exact hd1
    · rw [writeRow_data]
      exact hd2
    · intro p hpm
      rcases writeRow_mem hpm with h2 | rfl
      · exact hw1 p h2
      · exact hpair
    · exact hDnodup st row rfl
    · intro p hpm
      rw [writeRow_data]
      rcases writeRow_mem hpm with h2 | rfl
      · exact hw3 p h2
      · exact hlk
    · exact hWK st row rfl
  -- (3) deleted/removed without a prior record: state unchanged
  · rw [heq]
    exact ⟨hd1, hd2, hw1, hw2, hw3, Or.inl rfl⟩
  -- (4) negative-cache hit: state unchanged
  · rw [heq]
    exact ⟨hd1, hd2, hw1, hw2, hw3, Or.inl rfl⟩
  -- (5) unchanged positive record: carry it forward
  · rw [heq]
    have hpair : pairOK (c.comment_id, row) := hd1 _ (alookup_mem hlk)
    refine ⟨?_, ?_, ?_, ?_, ?_, ?_⟩
    · rw [writeRow_data]
      exact hd1
    · rw [writeRow_data]
      exact hd2
    · intro p hpm
      rcases writeRow_mem hpm with h2 | rfl
      · exact hw1 p h2
      · exact hpair
    · exact hDnodup st row rfl
    · intro p hpm
      rw [writeRow_data]
      rcases writeRow_mem hpm with h2 | rfl
      · exact hw3 p h2
      · exact hlk
    · exact hWK st row rfl
  -- (6) gateway negative/failure: erase the record, remember the negative
  · rw [heq]
    refine ⟨?_, ?_, hw1, hw2, ?_, Or.inl rfl⟩
    · intro p hpm
      exact hd1 p (mem_aerase hpm)
    · exact nodup_keys_aerase _ hd2
    · intro p hpm
      have hne : p.1 ≠ c.comment_id := by
        intro he
        exact hfresh (he ▸ List.mem_map.mpr ⟨p, hpm, rfl⟩)
      rw [alookup_aerase_ne _ _ _ hne]
      exact hw3 p hpm
  -- (7) fresh positive record
  · have hclean := process_comment_clean hG hH hid.2.1 hp
    have hpairnew : pairOK (c.comment_id, nr) := ⟨hclean.1, hclean.2.1, hid.1⟩
    rw [heq]
    refine ⟨?_, ?_, ?_, ?_, ?_, ?_⟩
    · rw [writeRow_data]
      intro p hpm
      rcases mem_ainsert hpm with h2 | rfl
      · exact hd1 p h2
      · exact hpairnew
    · rw [writeRow_data]
      exact nodup_keys_ainsert _ _ hd2
    · intro p hpm
      rcases writeRow_mem hpm with h2 | rfl
      · exact hw1 p h2
      · exact hpairnew
    · exact hDnodup _ nr rfl
    · intro p hpm
      rw [writeRow_data]
      rcases writeRow_mem hpm with h2 | rfl
      · have hne : p.1 ≠ c.comment_id := by
          intro he
          exact hfresh (he ▸ List.mem_map.mpr ⟨p, h2, rfl⟩)
        rw [alookup_ainsert_ne _ _ _ _ hne]
        exact hw3 p h2
      · exact alookup_ainsert_self _ _ _
    · exact hWK _ nr rfl
  -- (8) edited record: merge and store
  · have hclean := process_comment_clean hG hH hid.2.1 hp
    have hpairold : pairOK (c.comment_id, row) := hd1 _ (alookup_mem hlk)
    have hpairnew : pairOK (c.comment_id, row.merge_with nr) := by
      refine ⟨merge_clean hpairold.1 hclean.1, ?_, hid.1⟩
      show row.comment_id = c.comment_id
      exact hpairold.2.1
    rw [heq]
    refine ⟨?_, ?_, ?_, ?_, ?_, ?_⟩
    · rw [writeRow_data]
      intro p hpm
      rcases mem_ainsert hpm with h2 | rfl
      · exact hd1 p h2
      · exact hpairnew
    · rw [writeRow_data]
      exact nodup_keys_ainsert _ _ hd2
    · intro p hpm
      rcases writeRow_mem hpm with h2 | rfl
      · exact hw1 p h2
      · exact hpairnew
    · exact hDnodup _ (row.merge_with nr) rfl
    · intro p hpm
      rw [writeRow_data]
      rcases writeRow_mem hpm with h2 | rfl
      · have hne : p.1 ≠ c.comment_id := by
          intro he
          exact hfresh (he ▸ List.mem_map.mpr ⟨p, h2, rfl⟩)
        rw [alookup_ainsert_ne _ _ _ _ hne]
        exact hw3 p h2
      · exact alookup_ainsert_self _ _ _
    · exact hWK _ (row.merge_with nr) rfl

/-! ### Step locality and short-circuit lemmas -/

theorem step_data_ne {hash : String → String} {g : String → GOut}
    {st : RunState} {c : SourceItem} {k : String} (hk : k ≠ c.comment_id) :
    alookup (step hash g st c).data k = alookup st.data k := by
  rcases step_char hash g st c with
    ⟨_, heq⟩ | ⟨_, row, _, heq⟩ | ⟨_, _, heq⟩ | ⟨_, heq⟩
    | ⟨row, _, _, heq⟩ | ⟨_, _, _, _, _, heq⟩ | ⟨nr, _, _, _, _, _, heq⟩
    | ⟨row, nr, _, _, _, _, _, _, heq⟩ <;> rw [heq]
  · rw [writeRow_data]
  · rw [writeRow_data]
  · exact alookup_aerase_ne _ _ _ hk
  · rw [writeRow_data]
    exact alookup_ainsert_ne _ _ _ _ hk
  · rw [writeRow_data]
    exact alookup_ainsert_ne _ _ _ _ hk

theorem step_skipped_ne {hash : String → String} {g : String → GOut}
    {st : RunState} {c : SourceItem} {k : String} (hk : k ≠ c.comment_id) :
    alookup (step hash g st c).skipped k = alookup st.skipped k := by
  rcases step_char hash g st c with
    ⟨_, heq⟩ | ⟨_, row, _, heq⟩ | ⟨_, _, heq⟩ | ⟨_, heq⟩
    | ⟨row, _, _, heq⟩ | ⟨_, _, _, _, _, heq⟩ | ⟨nr, _, _, _, _, _, heq⟩
    | ⟨row, nr, _, _, _, _, _, _, heq⟩ <;> rw [heq]
  · rw [writeRow_skipped]
  · rw [writeRow_skipped]
  · exact alookup_ainsert_ne _ _ _ _ hk
  · rw [writeRow_skipped]
  · rw [writeRow_skipped]

theorem step_calls_sub {hash : String → String} {g : String → GOut}
    {st : RunState} {c : SourceItem} :
    ∀ p ∈ (step hash g st c).calls, p ∈ st.calls ∨ p.1 = c.comment_id := by
  rcases step_char hash g st c with
    ⟨_, heq⟩ | ⟨_, row, _, heq⟩ | ⟨_, _, heq⟩ | ⟨_, heq⟩
    | ⟨row, _, _, heq⟩ | ⟨_, _, _, _, _, heq⟩ | ⟨nr, _, _, _, _, _, heq⟩
    | ⟨row, nr, _, _, _, _, _, _, heq⟩ <;> rw [heq] <;> intro p hp
  · exact Or.inl hp
  · rw [writeRow_calls] at hp
    exact Or.inl hp
  · exact Or.inl hp
  · exact Or.inl hp
  · rw [writeRow_calls] at hp
    exact Or.inl hp
  · rcases List.mem_append.mp hp with h2 | h2
    · exact Or.inl h2
    · exact Or.inr (by rw [show p = (c.comment_id, c.body) from by simpa using h2])
  · rw [writeRow_calls] at hp
    rcases List.mem_append.mp hp with h2 | h2
    · exact Or.inl h2
    · exact Or.inr (by rw [show p = (c.comment_id, c.body) from by simpa using h2])
  · rw [writeRow_calls] at hp
    rcases List.mem_append.mp hp with h2 | h2
    · exact Or.inl h2
    · exact Or.inr (by rw [show p = (c.comment_id, c.body) from by simpa using h2])

theorem step_skipped_mem {hash : String → String} {g : String → GOut}
    {st : RunState} {c : SourceItem} :
    ∀ p ∈ (step hash g st c).skipped,
      p ∈ st.skipped ∨ p = (c.comment_id, hash c.body) := by
  rcases step_char hash g st c with
    ⟨_, heq⟩ | ⟨_, row, _, heq⟩ | ⟨_, _, heq⟩ | ⟨_, heq⟩
    | ⟨row, _, _, heq⟩ | ⟨_, _, _, _, _, heq⟩ | ⟨nr, _, _, _, _, _, heq⟩
    | ⟨row, nr, _, _, _, _, _, _, heq⟩ <;> rw [heq] <;> intro p hp
  · exact Or.inl hp
  · rw [writeRow_skipped] at hp
    exact Or.inl hp
  · exact Or.inl hp
  · exact Or.inl hp
  · rw [writeRow_skipped] at hp
    exact Or.inl hp
  · exact mem_ainsert hp
  · rw [writeRow_skipped] at hp
    exact Or.inl hp
  · rw [writeRow_skipped] at hp
    exact Or.inl hp

theorem step_written_keys {hash : String → String} {g : String → GOut}
    {st : RunState} {c : SourceItem} :
    ∀ p ∈ (step hash g st c).written, p ∈ st.written ∨ p.1 = c.comment_id := by
  rcases step_char hash g st c with
    ⟨_, heq⟩ | ⟨_, row, _, heq⟩ | ⟨_, _, heq⟩ | ⟨_, heq⟩
    | ⟨row, _, _, heq⟩ | ⟨_, _, _, _, _, heq⟩ | ⟨nr, _, _, _, _, _, heq⟩
    | ⟨row, nr, _, _, _, _, _, _, heq⟩ <;> rw [heq] <;> intro p hp
  · exact Or.inl hp
  · rcases writeRow_mem hp with h2 | rfl
    · exact Or.inl h2
    · exact Or.inr rfl
  · exact Or.inl hp
  · exact Or.inl hp
  · rcases writeRow_mem hp with h2 | rfl
    · exact Or.inl h2
    · exact Or.inr rfl
  · exact Or.inl hp
  · rcases writeRow_mem hp with h2 | rfl
    · exact Or.inl h2
    · exact Or.inr rfl
  · rcases writeRow_mem hp with h2 | rfl
    · exact Or.inl h2
    · exact Or.inr rfl

/-- A short-circuiting item (blank, retracted, cached-negative or unchanged)
leaves the store, the negative cache and the call log untouched, and writes
only rows that agree with the current store. -/
theorem step_sc {hash : String → String} {g : String → GOut}
    {st : RunState} {c : SourceItem}
    (h : SCCondAt (alookup st.data c.comment_id)
      (alookup st.skipped c.comment_id) hash c) :
    (step hash g st c).data = st.data
      ∧ (step hash g st c).skipped = st.skipped
      ∧ (step hash g st c).calls = st.calls
      ∧ ∀ p ∈ (step hash g st c).written,
          p ∈ st.written ∨ alookup st.data p.1 = some p.2 := by
  rcases step_char hash g st c with
    ⟨_, heq⟩ | ⟨_, row, hlk, heq⟩ | ⟨_, _, heq⟩ | ⟨_, heq⟩
    | ⟨row, hlk, _, heq⟩ | ⟨hnb, hns, hnc, hdata, _, heq⟩
    | ⟨nr, hnb, hns, hnc, hlk, _, heq⟩
    | ⟨row, nr, hnb, hns, hnc, hlk, hno, _, heq⟩
  · rw [heq]
    exact ⟨rfl, rfl, rfl, fun p hp => Or.inl hp⟩
  · rw [heq]
    refine ⟨writeRow_data _ _ _, writeRow_skipped _ _ _, writeRow_calls _ _ _, ?_⟩
    intro p hp
    rcases writeRow_mem hp with h2 | rfl
    · exact Or.inl h2
    · exact Or.inr hlk
  · rw [heq]
    exact ⟨rfl, rfl, rfl, fun p hp => Or.inl hp⟩
  · rw [heq]
    exact ⟨rfl, rfl, rfl, fun p hp => Or.inl hp⟩
  · rw [heq]
    refine ⟨writeRow_data _ _ _, writeRow_skipped _ _ _, writeRow_calls _ _ _, ?_⟩
    intro p hp
    rcases writeRow_mem hp with h2 | rfl
    · exact Or.inl h2
    · exact Or.inr hlk
  · exfalso
    rcases h with hb | hd | hr | hc | ⟨r, hlk2, hh⟩
    · exact hnb hb
    · exact hns (Or.inl hd)
    · exact hns (Or.inr hr)
    · exact hnc hc
    · rcases hdata with hnone | ⟨row, hsome, hne⟩
      · rw [hnone] at hlk2
        exact Option.noConfusion hlk2
      · rw [hsome] at hlk2
        exact hne ((Option.some.inj hlk2) ▸ hh)
  · exfalso
    rcases h with hb | hd | hr | hc | ⟨r, hlk2, hh⟩
    · exact hnb hb
    · exact hns (Or.inl hd)
    · exact hns (Or.inr hr)
    · exact hnc hc
    · rw [hlk] at hlk2
      exact Option.noConfusion hlk2
  · exfalso
    rcases h with hb | hd | hr | hc | ⟨r, hlk2, hh⟩
    · exact hnb hb
    · exact hns (Or.inl hd)
    · exact hns (Or.inr hr)
    · exact hnc hc
    · rw [hlk] at hlk2
      exact hno ((Option.some.inj hlk2) ▸ hh)

/-- After its own step, every item satisfies a short-circuit condition at its
id: the step either left a matching negative-cache entry or a record whose
stored hash matches the item's body. -/
theorem step_establishes {hash : String → String} {g : String → GOut}
    (st : RunState) (c : SourceItem) :
    SCCondAt (alookup (step hash g st c).data c.comment_id)
      (alookup (step hash g st c).skipped c.comment_id) hash c := by
  rcases step_char hash g st c with
    ⟨hb, heq⟩ | ⟨hs, row, hlk, heq⟩ | ⟨hs, _, heq⟩ | ⟨hc, heq⟩
    | ⟨row, hlk, hh, heq⟩ | ⟨_, _, _, _, hp, heq⟩
    | ⟨nr, _, _, _, hlk, hp, heq⟩
    | ⟨row, nr, _, _, _, hlk, hno, hp, heq⟩
  · exact Or.inl hb
  · rcases hs with hd | hr
    · exact Or.inr (Or.inl hd)
    · exact Or.inr (Or.inr (Or.inl hr))
  · rcases hs with hd | hr
    · exact Or.inr (Or.inl hd)
    · exact Or.inr (Or.inr (Or.inl hr))
  · rw [heq]
    exact Or.inr (Or.inr (Or.inr (Or.inl hc)))
  · rw [heq, writeRow_data]
    exact Or.inr (Or.inr (Or.inr (Or.inr ⟨row, hlk, hh⟩)))
  · rw [heq]
    refine Or.inr (Or.inr (Or.inr (Or.inl ?_)))
    exact alookup_ainsert_self _ _ _
  · rw [heq, writeRow_data]
    refine Or.inr (Or.inr (Or.inr (Or.inr ⟨nr, alookup_ainsert_self _ _ _, ?_⟩)))
    unfold process_comment at hp
    cases hg : g c.body with
    | gerr =>
      rw [hg] at hp
      exact Option.noConfusion hp
    | gskip =>
      rw [hg] at hp
      exact Option.noConfusion hp
    | gok e m a bi ap ce =>
      rw [hg] at hp
      rw [← Option.some.inj hp]
  · rw [heq, writeRow_data]
    refine Or.inr (Or.inr (Or.inr (Or.inr
      ⟨row.merge_with nr, alookup_ainsert_self _ _ _, ?_⟩)))
    show nr.body_hash = hash c.body
    unfold process_comment at hp
    cases hg : g c.body with
    | gerr =>
      rw [hg] at hp
      exact Option.noConfusion hp
    | gskip =>
      rw [hg] at hp
      exact Option.noConfusion hp
    | gok e m a bi ap ce =>
      rw [hg] at hp
      rw [← Option.some.inj hp]

/-! ### Loop-level inductions -/

theorem loop_master {hash : String → String} {g : String → GOut}
    (hH : HashOK hash) (hG : GateOK g) :
    ∀ (feed : List SourceItem) (st : RunState),
      (∀ c ∈ feed, idOK c.comment_id) →
      (∀ k ∈ writtenKeys st, ∀ c ∈ feed, k ≠ c.comment_id) →
      ((feed.map SourceItem.comment_id).Nodup) →
      (∀ p ∈ st.data, pairOK p) → ((st.data.map Prod.fst).Nodup) →
      (∀ p ∈ st.written, pairOK p) → ((st.written.map Prod.fst).Nodup) →
      (∀ p ∈ st.written, alookup st.data p.1 = some p.2) →
      (∀ p ∈ (runLoop hash g st feed).data, pairOK p)
        ∧ ((runLoop hash g st feed).data.map Prod.fst).Nodup
        ∧ (∀ p ∈ (runLoop hash g st feed).written, pairOK p)
        ∧ ((runLoop hash g st feed).written.map Prod.fst).Nodup
        ∧ (∀ p ∈ (runLoop hash g st feed).written,
            alookup (runLoop hash g st feed).data p.1 = some p.2) := by
  intro feed
  induction feed with
  | nil =>
    intro st _ _ _ hd1 hd2 hw1 hw2 hw3
    exact ⟨hd1, hd2, hw1, hw2, hw3⟩
  | cons c rest ih =>
    intro st hids hwk hnd hd1 hd2 hw1 hw2 hw3
    have hfresh : c.comment_id ∉ writtenKeys st := by
      intro hmem
      exact hwk _ hmem c (List.mem_cons_self _ _) rfl
    obtain ⟨sa, sb, sc2, sd, se, sf⟩ := step_master hH hG st c
      (hids c (List.mem_cons_self _ _)) hd1 hd2 hw1 hw2 hw3 hfresh
    rw [List.map_cons, List.nodup_cons] at hnd
    show (∀ p ∈ (runLoop hash g (step hash g st c) rest).data, pairOK p) ∧ _
    refine ih (step hash g st c)
      (fun x hx => hids x (List.mem_cons_of_mem _ hx)) ?_ hnd.2 sa sb sc2 sd se
    intro k hk c2 hc2 hkc
    rcases sf with he | he
    · rw [he] at hk
      exact hwk k hk c2 (List.mem_cons_of_mem _ hc2) hkc
    · rw [he] at hk
      rcases List.mem_append.mp hk with h2 | h2
      · exact hwk k h2 c2 (List.mem_cons_of_mem _ hc2) hkc
      · have hkc2 : k = c.comment_id := by simpa using h2
        subst hkc2
        refine hnd.1 ?_
        rw [hkc]
        exact List.mem_map.mpr ⟨c2, hc2, rfl⟩

theorem loop_ne {hash : String → String} {g : String → GOut} {id : String} :
    ∀ (feed : List SourceItem) (st : RunState),
      (∀ c ∈ feed, c.comment_id ≠ id) →
      alookup (runLoop hash g st feed).data id = alookup st.data id
        ∧ alookup (runLoop hash g st feed).skipped id = alookup st.skipped id := by
  intro feed
  induction feed with
  | nil =>
    intro st _
    exact ⟨rfl, rfl⟩
  | cons c rest ih =>
    intro st hne
    obtain ⟨h1, h2⟩ := ih (step hash g st c)
      (fun x hx => hne x (List.mem_cons_of_mem _ hx))
    have hid : id ≠ c.comment_id := fun e => hne c (List.mem_cons_self _ _) e.symm
    rw [step_data_ne hid] at h1
    rw [step_skipped_ne hid] at h2
    exact ⟨h1, h2⟩

theorem loop_sc_at {hash : String → String} {g : String → GOut} {id : String} :
    ∀ (feed : List SourceItem) (st : RunState),
      (∀ c ∈ feed, c.comment_id = id →
        SCCondAt (alookup st.data id) (alookup st.skipped id) hash c) →
      alookup (runLoop hash g st feed).data id = alookup st.data id
        ∧ alookup (runLoop hash g st feed).skipped id = alookup st.skipped id
        ∧ (∀ p ∈ (runLoop hash g st feed).calls, p ∈ st.calls ∨ p.1 ≠ id)
        ∧ (∀ p ∈ (runLoop hash g st feed).written,
            p ∈ st.written ∨ p.1 ≠ id ∨ alookup st.data id = some p.2) := by
  intro feed
  induction feed with
  | nil =>
    intro st _
    exact ⟨rfl, rfl, fun p hp => Or.inl hp, fun p hp => Or.inl hp⟩
  | cons c rest ih =>
    intro st hcond
    by_cases hceq : c.comment_id = id
    · have hsc : SCCondAt (alookup st.data c.comment_id)
          (alookup st.skipped c.comment_id) hash c := by
        rw [hceq]
        exact hcond c (List.mem_cons_self _ _) hceq
      obtain ⟨e1, e2, e3, e4⟩ := step_sc hsc
      obtain ⟨i1, i2, i3, i4⟩ := ih (step hash g st c) (by
        intro x hx hxid
        rw [e1, e2]
        exact hcond x (List.mem_cons_of_mem _ hx) hxid)
      rw [e1] at i1 i4
      rw [e2] at i2
      refine ⟨i1, i2, ?_, ?_⟩
      · intro p hp
        rcases i3 p hp with h2 | h2
        · rw [e3] at h2
          exact Or.inl h2
        · exact Or.inr h2
      · intro p hp
        rcases i4 p hp with h2 | h2 | h2
        · rcases e4 p h2 with h3 | h3
          · exact Or.inl h3
          · by_cases hpi : p.1 = id
            · exact Or.inr (Or.inr (hpi ▸ h3))
            · exact Or.inr (Or.inl hpi)
        · exact Or.inr (Or.inl h2)
        · exact Or.inr (Or.inr h2)
    · have hne : id ≠ c.comment_id := fun e => hceq e.symm
      obtain ⟨i1, i2, i3, i4⟩ := ih (step hash g st c) (by
        intro x hx hxid
        rw [step_data_ne hne, step_skipped_ne hne]
        exact hcond x (List.mem_cons_of_mem _ hx) hxid)
      rw [step_data_ne hne] at i1 i4
      rw [step_skipped_ne hne] at i2
      refine ⟨i1, i2, ?_, ?_⟩
      · intro p hp
        rcases i3 p hp with h2 | h2
        · rcases step_calls_sub p h2 with h3 | h3
          · exact Or.inl h3
          · exact Or.inr (by rw [h3]; exact hceq)
        · exact Or.inr h2
      · intro p hp
        rcases i4 p hp with h2 | h2 | h2
        · rcases step_written_keys p h2 with h3 | h3
          · exact Or.inl h3
          · exact Or.inr (Or.inl (by rw [h3]; exact hceq))
        · exact Or.inr (Or.inl h2)
        · exact Or.inr (Or.inr h2)

theorem loop_stable {hash : String → String} {g : String → GOut} :
    ∀ (feed : List SourceItem) (st : RunState),
      (∀ c ∈ feed, SCCondAt (alookup st.data c.comment_id)
        (alookup st.skipped c.comment_id) hash c) →
      (runLoop hash g st feed).data = st.data
        ∧ (runLoop hash g st feed).skipped = st.skipped
        ∧ (runLoop hash g st feed).calls = st.calls
        ∧ (∀ p ∈ (runLoop hash g st feed).written,
            p ∈ st.written ∨ alookup st.data p.1 = some p.2) := by
  intro feed
  induction feed with
  | nil =>
    intro st _
    exact ⟨rfl, rfl, rfl, fun p hp => Or.inl hp⟩
  | cons c rest ih =>
    intro st hcond
    obtain ⟨e1, e2, e3, e4⟩ := step_sc (hcond c (List.mem_cons_self _ _))
    obtain ⟨i1, i2, i3, i4⟩ := ih (step hash g st c) (by
      intro x hx
      rw [e1, e2]
      exact hcond x (List.mem_cons_of_mem _ hx))
    rw [e1] at i1 i4
    rw [e2] at i2
    rw [e3] at i3
    refine ⟨i1, i2, i3, ?_⟩
    intro p hp
    rcases i4 p hp with h2 | h2
    · rcases e4 p h2 with h3 | h3
      · exact Or.inl h3
      · exact Or.inr h3
    · exact Or.inr h2

theorem loop_establishes {hash : String → String} {g : String → GOut} :
    ∀ (feed : List SourceItem) (st : RunState),
      ((feed.map SourceItem.comment_id).Nodup) →
      ∀ c ∈ feed,
        SCCondAt (alookup (runLoop hash g st feed).data c.comment_id)
          (alookup (runLoop hash g st feed).skipped c.comment_id) hash c := by
  intro feed
  induction feed with
  | nil =>
    intro st _ c hc
    simp at hc
  | cons a rest ih =>
    intro st hnd c hc
    rw [List.map_cons, List.nodup_cons] at hnd
    show SCCondAt (alookup (runLoop hash g (step hash g st a) rest).data c.comment_id)
      (alookup (runLoop hash g (step hash g st a) rest).skipped c.comment_id) hash c
    rcases List.mem_cons.mp hc with rfl | hc2
    · have hrest : ∀ x ∈ rest, x.comment_id ≠ c.comment_id := by
        intro x hx he
        exact hnd.1 (List.mem_map.mpr ⟨x, hx, he⟩)
      obtain ⟨h1, h2⟩ := loop_ne rest (step hash g st c) hrest
      rw [h1, h2]
      exact step_establishes st c
    · exact ih (step hash g st a) hnd.2 c hc2

theorem loop_skipped_mem {hash : String → String} {g : String → GOut} :
    ∀ (feed : List SourceItem) (st : RunState),
      ∀ p ∈ (runLoop hash g st feed).skipped,
        p ∈ st.skipped ∨ ∃ c ∈ feed, p = (c.comment_id, hash c.body) := by
  intro feed
  induction feed with
  | nil =>
    intro st p hp
    exact Or.inl hp
  | cons c rest ih =>
    intro st p hp
    rcases ih (step hash g st c) p hp with h2 | ⟨c2, hc2, he⟩
    · rcases step_skipped_mem p h2 with h3 | h3
      · exact Or.inl h3
      · exact Or.inr ⟨c, List.mem_cons_self _ _, h3⟩
    · exact Or.inr ⟨c2, List.mem_cons_of_mem _ hc2, he⟩

/-! ### `finish` (carrying unseen ids into the in-progress file) -/

theorem finishFold_fields :
    ∀ (l : List (String × TimelineRow)) (s : RunState),
      (l.foldl (fun s kv =>
        if kv.1 ∈ writtenKeys s then s else { s with written := s.written ++ [kv] }) s).data
          = s.data
      ∧ (l.foldl (fun s kv =>
        if kv.1 ∈ writtenKeys s then s else { s with written := s.written ++ [kv] }) s).skipped
          = s.skipped
      ∧ (l.foldl (fun s kv =>
        if kv.1 ∈ writtenKeys s then s else { s with written := s.written ++ [kv] }) s).calls
          = s.calls := by
  intro l
  induction l with
  | nil =>
    intro s
    exact ⟨rfl, rfl, rfl⟩
  | cons kv t ih =>
    intro s
    rw [List.foldl_cons]
    obtain ⟨i1, i2, i3⟩ := ih (if kv.1 ∈ writtenKeys s then s
      else { s with written := s.written ++ [kv] })
    refine ⟨?_, ?_, ?_⟩ <;> [rw [i1]; rw [i2]; rw [i3]] <;> split <;> rfl

theorem finishFold_written_mono :
    ∀ (l : List (String × TimelineRow)) (s : RunState),
      ∀ p ∈ s.written,
        p ∈ (l.foldl (fun s kv =>
          if kv.1 ∈ writtenKeys s then s
          else { s with written := s.written ++ [kv] }) s).written := by
  intro l
  induction l with
  | nil =>
    intro s p hp
    exact hp
  | cons kv t ih =>
    intro s p hp
    rw [List.foldl_cons]
    refine ih _ p ?_
    split
    · exact hp
    · exact List.mem_append.mpr (Or.inl hp)

theorem finishFold_written_mem :
    ∀ (l : List (String × TimelineRow)) (s : RunState),
      ∀ p ∈ (l.foldl (fun s kv =>
          if kv.1 ∈ writtenKeys s then s
          else { s with written := s.written ++ [kv] }) s).written,
        p ∈ s.written ∨ p ∈ l := by
  intro l
  induction l with
  | nil =>
    intro s p hp
    exact Or.inl hp
  | cons kv t ih =>
    intro s p hp
    rw [List.foldl_cons] at hp
    rcases ih _ p hp with h2 | h2
    · revert h2
      split
      · intro h2
        exact Or.inl h2
      · intro h2
        rcases List.mem_append.mp h2 with h3 | h3
        · exact Or.inl h3
        · have hpk : p = kv := by simpa using h3
          exact Or.inr (hpk ▸ List.mem_cons_self kv t)
    · exact Or.inr (List.mem_cons_of_mem _ h2)

theorem finishFold_keys_mono :
    ∀ (l : List (String × TimelineRow)) (s : RunState) (k : String),
      k ∈ writtenKeys s →
      k ∈ writtenKeys (l.foldl (fun s kv =>
        if kv.1 ∈ writtenKeys s then s
        else { s with written := s.written ++ [kv] }) s) := by
  intro l s k hk
  rcases List.mem_map.mp hk with ⟨p, hp, rfl⟩
  exact List.mem_map.mpr ⟨p, finishFold_written_mono l s p hp, rfl⟩

theorem finishFold_covers :
    ∀ (l : List (String × TimelineRow)) (s : RunState),
      ∀ kv ∈ l,
        kv.1 ∈ writtenKeys (l.foldl (fun s kv =>
          if kv.1 ∈ writtenKeys s then s
          else { s with written := s.written ++ [kv] }) s) := by
  intro l
  induction l with
  | nil =>
    intro s kv hkv
    simp at hkv
  | cons q t ih =>
    intro s kv hkv
    rw [List.foldl_cons]
    rcases List.mem_cons.mp hkv with rfl | h2
    · refine finishFold_keys_mono t _ kv.1 ?_
      split
      · assumption
      · unfold writtenKeys
        rw [List.map_append]
        exact List.mem_append.mpr (Or.inr (by simp))
    · exact ih _ kv h2

theorem finishFold_nodup :
    ∀ (l : List (String × TimelineRow)) (s : RunState),
      ((s.written.map Prod.fst).Nodup) →
      (((l.foldl (fun s kv =>
        if kv.1 ∈ writtenKeys s then s
        else { s with written := s.written ++ [kv] }) s).written.map Prod.fst).Nodup) := by
  intro l
  induction l with
  | nil =>
    intro s hs
    exact hs
  | cons kv t ih =>
    intro s hs
    rw [List.foldl_cons]
    refine ih _ ?_
    split
    · exact hs
    · rw [List.map_append]
      exact nodup_append_singleton (by assumption) hs

/-- After `finish`: store, cache and call log unchanged; written rows are the
old ones plus store entries; all store keys are covered; key distinctness
preserved. -/
theorem finish_master (st : RunState)
    (hw2 : (st.written.map Prod.fst).Nodup) :
    (finish st).data = st.data ∧ (finish st).skipped = st.skipped
      ∧ (finish st).calls = st.calls
      ∧ (∀ p ∈ (finish st).written, p ∈ st.written ∨ p ∈ st.data)
      ∧ (((finish st).written.map Prod.fst).Nodup)
      ∧ (∀ p ∈ st.written, p ∈ (finish st).written)
      ∧ (∀ k, alookup st.data k ≠ none → k ∈ writtenKeys (finish st)) := by
  unfold finish
  obtain ⟨f1, f2, f3⟩ := finishFold_fields st.data st
  refine ⟨f1, f2, f3, finishFold_written_mem st.data st, finishFold_nodup st.data st hw2,
    finishFold_written_mono st.data st, ?_⟩
  intro k hk
  cases hl : alookup st.data k with
  | none => exact absurd hl hk
  | some v =>
    have hmem := alookup_mem hl
    exact finishFold_covers st.data st (k, v) hmem

/-! ### Whole-run master lemma -/

theorem run_master {hash : String → String} {g : String → GOut}
    (hH : HashOK hash) (hG : GateOK g) (feed : List SourceItem)
    (D : List (String × TimelineRow)) (K : List (String × String))
    (hF : FeedOK feed) (hD : StoreOK D) :
    (∀ p ∈ (run hash g feed D K).written, pairOK p)
      ∧ (((run hash g feed D K).written.map Prod.fst).Nodup)
      ∧ ((run hash g feed D K).data.map Prod.fst).Nodup
      ∧ (∀ p ∈ (run hash g feed D K).data, pairOK p)
      ∧ (∀ k, alookup (finalData (run hash g feed D K)) k
          = alookup (run hash g feed D K).data k) := by
  have hd1 : ∀ p ∈ D, pairOK p := by
    intro p hp
    exact ⟨(hD.2.2 p hp).1, hD.2.1 p hp, (hD.2.2 p hp).2⟩
  obtain ⟨la, lb, lc, ld, le⟩ := loop_master hH hG feed (initState D K)
    hF.2
    (by
      intro k hk
      simp [initState, writtenKeys] at hk)
    hF.1 hd1 hD.1
    (by
      intro p hp
      simp [initState] at hp)
    (by simp [initState])
    (by
      intro p hp
      simp [initState] at hp)
  obtain ⟨f1, f2, f3, f4, f5, f6, f7⟩ :=
    finish_master (runLoop hash g (initState D K) feed) ld
  have hrun : run hash g feed D K = finish (runLoop hash g (initState D K) feed) := rfl
  have hwOK : ∀ p ∈ (run hash g feed D K).written, pairOK p := by
    rw [hrun]
    intro p hp
    rcases f4 p hp with h2 | h2
    · exact lc p h2
    · exact la p h2
  have hwnd : ((run hash g feed D K).written.map Prod.fst).Nodup := by
    rw [hrun]
    exact f5
  have hdataeq : (run hash g feed D K).data
      = (runLoop hash g (initState D K) feed).data := by
    rw [hrun, f1]
  refine ⟨hwOK, hwnd, ?_, ?_, ?_⟩
  · rw [hdataeq]
    exact lb
  · rw [hdataeq]
    exact la
  · intro k
    have hparse : alookup (finalData (run hash g feed D K)) k
        = alookup (run hash g feed D K).written k :=
      alookup_read_renderPairs _ hwOK hwnd k
    rw [hparse]
    cases hw : alookup (run hash g feed D K).written k with
    | some v =>
      have hmem := alookup_mem hw
      rw [hrun] at hmem
      rcases f4 _ hmem with h2 | h2
      · have hle := le _ h2
        rw [hdataeq]
        exact hle.symm
      · rw [hdataeq]
        exact (alookup_eq_of_mem_nodup lb h2).symm
    | none =>
      have hnk : k ∉ writtenKeys (run hash g feed D K) :=
        (alookup_eq_none_iff _ k).mp hw
      rw [hrun] at hnk
      have hdn : alookup (runLoop hash g (initState D K) feed).data k = none := by
        by_contra hne
        exact hnk (f7 k hne)
      rw [hdataeq, hdn]

theorem finish_fields (st : RunState) :
    (finish st).data = st.data ∧ (finish st).skipped = st.skipped
      ∧ (finish st).calls = st.calls := by
  unfold finish
  exact finishFold_fields st.data st

theorem feed_id_unique {feed : List SourceItem}
    (hnd : (feed.map SourceItem.comment_id).Nodup) {c x : SourceItem}
    (hc : c ∈ feed) (hx : x ∈ feed) (he : x.comment_id = c.comment_id) : x = c := by
  induction feed with
  | nil => simp at hc
  | cons a t ih =>
    rw [List.map_cons, List.nodup_cons] at hnd
    rcases List.mem_cons.mp hc with rfl | hct
    · rcases List.mem_cons.mp hx with rfl | hxt
      · rfl
      · exact absurd (List.mem_map.mpr ⟨x, hxt, he⟩) hnd.1
    · rcases List.mem_cons.mp hx with rfl | hxt
      · exact absurd (List.mem_map.mpr ⟨c, hct, he.symm⟩) hnd.1
      · exact ih hnd.2 hct hxt

/-- If every feed item carrying a given id short-circuits at that id, the run
makes no gateway call for the id and the final snapshot carries exactly the
prior store's binding for it. -/
theorem run_sc_at {hash : String → String} {g : String → GOut}
    {feed : List SourceItem} {D : List (String × TimelineRow)}
    {K : List (String × String)} (hH : HashOK hash) (hG : GateOK g)
    (hF : FeedOK feed) (hD : StoreOK D) (id : String)
    (hcond : ∀ x ∈ feed, x.comment_id = id →
      SCCondAt (alookup D id) (alookup K id) hash x) :
    (∀ p ∈ (run hash g feed D K).calls, p.1 ≠ id)
      ∧ alookup (finalData (run hash g feed D K)) id = alookup D id := by
  obtain ⟨l1, l2, l3, l4⟩ := loop_sc_at feed (initState D K) hcond
  have hrun : run hash g feed D K = finish (runLoop hash g (initState D K) feed) := rfl
  obtain ⟨f1, f2, f3⟩ := finish_fields (runLoop hash g (initState D K) feed)
  constructor
  · intro p hp
    rw [hrun, f3] at hp
    rcases l3 p hp with h2 | h2
    · simp [initState] at h2
    · exact h2
  · have hm := (run_master hH hG feed D K hF hD).2.2.2.2 id
    rw [hm, hrun, f1, l1]

/-! ### Claim C1: transient gateway failure handling (code bug) -/

set_option maxRecDepth 100000 in
/-- C1: concrete demonstration of the divergence.  The prior store holds a
record for `c1` whose fingerprint differs from the current body (an edit),
and the gateway fails transiently (`gFail` always returns the failure
outcome).  The claim — and §4.3 of the specification — require the item to
be left unprocessed: no negative-cache entry, prior record kept, retried
next run.  The code instead made the call, recorded the id with the current
fingerprint in the negative cache, and dropped the prior record from the
snapshot, so the item will never be retried while its content is unchanged. -/
theorem claim_C1_failure_conflated :
    (run hashConst gFail feedOne storeOneOld []).calls = [(cid1, bodyB)]
      ∧ alookup (run hashConst gFail feedOne storeOneOld []).skipped cid1
          = some (hashConst bodyB)
      ∧ alookup (finalData (run hashConst gFail feedOne storeOneOld [])) cid1 = none := by
  refine ⟨?_, ?_, ?_⟩
  · decide
  · decide
  · decide

/-! ### Claim C5: negative-cache short-circuit -/

set_option maxRecDepth 100000 in
/-- C5 counterexample: an id whose stored negative fingerprint matches its
current content makes no gateway call — but it can still appear in the
positive snapshot: if a record for the id is also present in the store (the
code never purges a store row when only the cache matches), the untouched
record is carried into the snapshot by the end-of-run union. -/
theorem claim_C5_counterexample :
    alookup cacheOne cid1 = some (hashConst bodyB)
      ∧ (run hashConst gFail feedOne storeOneOld cacheOne).calls = []
      ∧ alookup (finalData (run hashConst gFail feedOne storeOneOld cacheOne)) cid1
          = some rowStoredOld := by
  refine ⟨?_, ?_, ?_⟩
  · decide
  · decide
  · decide

/-- C5 (amended): for every source item whose id has a stored negative-cache
fingerprint equal to the fingerprint of its current content, no gateway call
is made for that id during the run, and the snapshot's binding for the id is
exactly the prior store's binding — in particular, an id absent from the
prior positive store stays absent from the positive snapshot. -/
theorem claim_C5_amended {hash : String → String} {g : String → GOut}
    {feed : List SourceItem} {D : List (String × TimelineRow)}
    {K : List (String × String)} (hH : HashOK hash) (hG : GateOK g)
    (hF : FeedOK feed) (hD : StoreOK D) (c : SourceItem) (hc : c ∈ feed)
    (hcache : alookup K c.comment_id = some (hash c.body)) :
    (∀ p ∈ (run hash g feed D K).calls, p.1 ≠ c.comment_id)
      ∧ alookup (finalData (run hash g feed D K)) c.comment_id
          = alookup D c.comment_id := by
  refine run_sc_at hH hG hF hD c.comment_id ?_
  intro x hx he
  have hxc : x = c := feed_id_unique hF.1 hc hx he
  subst hxc
  rw [he]
  exact Or.inr (Or.inr (Or.inr (Or.inl (he ▸ hcache))))

/-- C5 amended witness: at the concrete cached-negative scenario the theorem
yields no calls and carry-over of the stored binding. -/
theorem claim_C5_amended_witness :
    (∀ p ∈ (run hashConst gFail feedOne storeOneOld cacheOne).calls, p.1 ≠ cid1)
      ∧ alookup (finalData (run hashConst gFail feedOne storeOneOld cacheOne)) cid1
          = alookup storeOneOld cid1 :=
  claim_C5_amended (fun _ => (by decide : fpOK "fp00"))
    (by
      intro b e m a bi ap ce h
      simp [gFail] at h)
    (by decide) (by decide) { comment_id := cid1, body := bodyB }
    (by decide) (by decide)

/-! ### Claim C6: retraction preserves the prior record -/

/-- C6: for every feed item whose body is the deleted/removed sentinel, no
gateway call is made for its id, and the snapshot's binding for the id is
exactly the prior store's binding (the prior record, if any, is carried into
the new snapshot with every field unchanged). -/
theorem claim_C6_retraction {hash : String → String} {g : String → GOut}
    {feed : List SourceItem} {D : List (String × TimelineRow)}
    {K : List (String × String)} (hH : HashOK hash) (hG : GateOK g)
    (hF : FeedOK feed) (hD : StoreOK D) (c : SourceItem) (hc : c ∈ feed)
    (hdel : c.body = "[deleted]" ∨ c.body = "[removed]") :
    (∀ p ∈ (run hash g feed D K).calls, p.1 ≠ c.comment_id)
      ∧ alookup (finalData (run hash g feed D K)) c.comment_id
          = alookup D c.comment_id := by
  refine run_sc_at hH hG hF hD c.comment_id ?_
  intro x hx he
  have hxc : x = c := feed_id_unique hF.1 hc hx he
  subst hxc
  rcases hdel with hd | hd
  · exact Or.inr (Or.inl hd)
  · exact Or.inr (Or.inr (Or.inl hd))

/-- C6 witness: the deleted item carries the stored record through. -/
theorem claim_C6_retraction_witness :
    (∀ p ∈ (run hashConst gFail feedDel storeOne []).calls, p.1 ≠ cid1)
      ∧ alookup (finalData (run hashConst gFail feedDel storeOne [])) cid1
          = alookup storeOne cid1 :=
  claim_C6_retraction (fun _ => (by decide : fpOK "fp00"))
    (by
      intro b e m a bi ap ce h
      simp [gFail] at h)
    (by decide) (by decide) { comment_id := cid1, body := "[deleted]" }
    (by decide) (by decide)

/-! ### Claim C7: unseen-id retention -/

/-- C7: every id present in the prior snapshot but absent from the current
source feed still has exactly its prior binding in the new snapshot (the
record appears with all fields unmodified; ids are never dropped merely for
being unseen). -/
theorem claim_C7_retention {hash : String → String} {g : String → GOut}
    {feed : List SourceItem} {D : List (String × TimelineRow)}
    {K : List (String × String)} (hH : HashOK hash) (hG : GateOK g)
    (hF : FeedOK feed) (hD : StoreOK D) (id : String)
    (hnotin : id ∉ feed.map SourceItem.comment_id) {r : TimelineRow}
    (hstored : alookup D id = some r) :
    alookup (finalData (run hash g feed D K)) id = some r := by
  have h := (@run_sc_at hash g feed D K hH hG hF hD id (fun x hx he =>
    absurd (List.mem_map.mpr ⟨x, hx, he⟩) hnotin)).2
  rw [h, hstored]

/-- C7 witness: the stored record for an id outside the feed is retained. -/
theorem claim_C7_retention_witness :
    alookup (finalData (run hashConst gOkFixed feedOther storeOne [])) cid1
      = some rowStored :=
  claim_C7_retention (fun _ => (by decide : fpOK "fp00"))
    (by
      intro b e m a bi ap ce h
      injection h with h1 h2 h3 h4 h5 h6
      subst h3
      subst h4
      subst h5
      subst h6
      exact ⟨by decide, by decide, by decide, by decide⟩)
    (by decide) (by decide) cid1 (by decide) (by decide)

/-! ### Claim C8: idempotence of a repeated pass -/

theorem initState_data (D : List (String × TimelineRow)) (K : List (String × String)) :
    (initState D K).data = D := rfl

theorem initState_skipped (D : List (String × TimelineRow)) (K : List (String × String)) :
    (initState D K).skipped = K := rfl

theorem initState_calls (D : List (String × TimelineRow)) (K : List (String × String)) :
    (initState D K).calls = [] := rfl

set_option maxHeartbeats 2000000 in
set_option maxRecDepth 100000 in
/-- C8: running the full pass a second time over the same unchanged feed —
with the second run starting from the snapshot and negative-cache files the
first run wrote (re-parsed exactly as the program re-reads them) — produces
a byte-identical snapshot and makes no gateway calls: every item
short-circuits as unchanged, cached-negative, retracted or blank. -/
theorem claim_C8_idempotence {hash : String → String} {g : String → GOut}
    {feed : List SourceItem} {D : List (String × TimelineRow)}
    {K : List (String × String)} (hH : HashOK hash) (hG : GateOK g)
    (hF : FeedOK feed) (hD : StoreOK D) (hK : CacheOK K) :
    finalSnapshot (run hash g feed
        (read_existing_data (finalSnapshot (run hash g feed D K)))
        (parseSkipped (skippedString (run hash g feed D K).skipped)))
      = finalSnapshot (run hash g feed D K)
    ∧ (run hash g feed
        (read_existing_data (finalSnapshot (run hash g feed D K)))
        (parseSkipped (skippedString (run hash g feed D K).skipped))).calls = [] := by
  obtain ⟨m1a, m1b, m1c, m1d, m1e⟩ := run_master hH hG feed D K hF hD
  have hD2 : ∀ k, alookup (read_existing_data (finalSnapshot (run hash g feed D K))) k
      = alookup (finalData (run hash g feed D K)) k := by
    intro k
    have hwsOK : ∀ p ∈ sortedPairs (finalData (run hash g feed D K)), pairOK p := by
      intro p hp
      have hm := alookup_mem (mem_sortedPairs hp)
      have hprops := (read_existing_data_props (inprogressContent (run hash g feed D K))).1
      exact hprops _ hm
    have hnd := sortedPairs_keys_nodup (finalData (run hash g feed D K))
    have hre : read_existing_data (finalSnapshot (run hash g feed D K))
        = read_existing_data
            (renderPairs (sortedPairs (finalData (run hash g feed D K)))) := rfl
    rw [hre, alookup_read_renderPairs _ hwsOK hnd k, alookup_sortedPairs]
  have hK1 : CacheOK (run hash g feed D K).skipped := by
    intro p hp
    have hrun : run hash g feed D K
        = finish (runLoop hash g (initState D K) feed) := rfl
    rw [hrun, (finish_fields _).2.1] at hp
    rcases loop_skipped_mem feed (initState D K) p hp with h2 | ⟨c, hc, he⟩
    · exact hK p h2
    · rw [he]
      exact ⟨hF.2 c hc, hH c.body⟩
  have hK2 : ∀ k, alookup (parseSkipped (skippedString (run hash g feed D K).skipped)) k
      = alookup (run hash g feed D K).skipped k :=
    parseSkipped_roundtrip _ hK1
  have hsettled : ∀ c ∈ feed,
      SCCondAt (alookup (run hash g feed D K).data c.comment_id)
        (alookup (run hash g feed D K).skipped c.comment_id) hash c := by
    intro c hc
    have hrun : run hash g feed D K
        = finish (runLoop hash g (initState D K) feed) := rfl
    rw [hrun, (finish_fields _).1, (finish_fields _).2.1]
    exact loop_establishes feed (initState D K) hF.1 c hc
  have hsettled2 : ∀ c ∈ feed,
      SCCondAt
        (alookup (initState (read_existing_data (finalSnapshot (run hash g feed D K)))
          (parseSkipped (skippedString (run hash g feed D K).skipped))).data c.comment_id)
        (alookup (initState (read_existing_data (finalSnapshot (run hash g feed D K)))
          (parseSkipped (skippedString (run hash g feed D K).skipped))).skipped c.comment_id)
        hash c := by
    intro c hc
    rw [initState_data, initState_skipped, hD2, m1e, hK2]
    exact hsettled c hc
  obtain ⟨s1, s2, s3, s4⟩ := loop_stable feed
    (initState (read_existing_data (finalSnapshot (run hash g feed D K)))
      (parseSkipped (skippedString (run hash g feed D K).skipped)))
    hsettled2
  have hD2OK : StoreOK (read_existing_data (finalSnapshot (run hash g feed D K))) :=
    read_existing_data_StoreOK _
  obtain ⟨m2a, m2b, m2c, m2d, m2e⟩ := run_master hH hG feed
    (read_existing_data (finalSnapshot (run hash g feed D K)))
    (parseSkipped (skippedString (run hash g feed D K).skipped)) hF hD2OK
  have hrun2 : run hash g feed
      (read_existing_data (finalSnapshot (run hash g feed D K)))
      (parseSkipped (skippedString (run hash g feed D K).skipped))
      = finish (runLoop hash g
          (initState (read_existing_data (finalSnapshot (run hash g feed D K)))
            (parseSkipped (skippedString (run hash g feed D K).skipped))) feed) := rfl
  have hdata2 : (run hash g feed
      (read_existing_data (finalSnapshot (run hash g feed D K)))
      (parseSkipped (skippedString (run hash g feed D K).skipped))).data
      = read_existing_data (finalSnapshot (run hash g feed D K)) := by
    rw [hrun2, (finish_fields _).1, s1, initState_data]
  have hcalls : (run hash g feed
      (read_existing_data (finalSnapshot (run hash g feed D K)))
      (parseSkipped (skippedString (run hash g feed D K).skipped))).calls = [] := by
    rw [hrun2, (finish_fields _).2.2, s3, initState_calls]
  have hfinal : ∀ k,
      alookup (finalData (run hash g feed
        (read_existing_data (finalSnapshot (run hash g feed D K)))
        (parseSkipped (skippedString (run hash g feed D K).skipped)))) k
      = alookup (finalData (run hash g feed D K)) k := by
    intro k
    rw [m2e k, hdata2, hD2 k]
  exact ⟨snapshotString_eq_of_lookup hfinal, hcalls⟩

/-- C8 witness: a concrete first pass over one fresh item followed by a
second pass over the unchanged feed. -/
theorem claim_C8_idempotence_witness :
    finalSnapshot (run hashConst gOkFixed feedOne
        (read_existing_data (finalSnapshot (run hashConst gOkFixed feedOne [] [])))
        (parseSkipped (skippedString (run hashConst gOkFixed feedOne [] []).skipped)))
      = finalSnapshot (run hashConst gOkFixed feedOne [] [])
    ∧ (run hashConst gOkFixed feedOne
        (read_existing_data (finalSnapshot (run hashConst gOkFixed feedOne [] [])))
        (parseSkipped (skippedString (run hashConst gOkFixed feedOne [] []).skipped))).calls
      = [] :=
  claim_C8_idempotence (fun _ => (by decide : fpOK "fp00"))
    (by
      intro b e m a bi ap ce h
      injection h with h1 h2 h3 h4 h5 h6
      subst h3
      subst h4
      subst h5
      subst h6
      exact ⟨by decide, by decide, by decide, by decide⟩)
    (by decide) (by decide) (by decide)
